import Mathlib

/-!
# Path planner of `FullCode/src/Path.cpp`

A shallow embedding of the collision-avoidance planner `Path` (goal correction,
direct-path test, RRT-style tree search, `simplify`, `cutCorners`, `extend`) and
theorems about it.

Conventions of the embedding

* `double` is idealised as an exact rational number (`ℚ`); rounding is not modelled.
* The classes `Vector2d`, `Position`, `LineSegment`, `TargetPoint`, the shapes behind
  `obstacles_`, `corners_`, `field_` and the class `KdTree` are declared in headers that
  are not part of `Path.cpp`.  Shapes are records of the member functions that
  `Path.cpp` calls on them; the Euclidean length (a square root) and the stream of
  `std::rand()` values are fields of `Env`; the tree is modelled from its specification.
* A dereference that C++ leaves undefined (`front()` of an empty vector, `operator[]`
  out of range, a null `tree_`) makes the embedded function return `none`.
* The `u_int` loop counters of `simplify` and `cutCorners` are natural numbers: waypoint
  lists are taken to be shorter than `2^32`, so these counters do not wrap.  The
  `size_t` expression `size() - 1`, which does wrap on an empty vector, is modelled by
  `sizeMinusOne`.
* Loops are recursive functions: a loop over a list is a recursion on the list, a counting
  loop a recursion on its counter with the distance to the bound as termination measure.
* The constructor (which sets `tree_` to `NULL`), `initializePath` (which binds `field_`
  and `corners_`) and the overload `intersectsObstacle(seg, idx)`, which nothing calls,
  are not embedded.

The file has three parts: the embedding of `Path.cpp`, the notions and concrete inputs used
in the statements, and the theorems.
-/

namespace RoboSoccer

/-! ## Geometry primitives -/

/-- A 2D vector with `double` coordinates (`Vector2d`). -/
structure Vector2d where
  x : ℚ
  y : ℚ
deriving DecidableEq

/-- A world-space location; `toPosition()` conversions are the identity here. -/
abbrev Position := Vector2d

namespace Vector2d

/-- Componentwise sum, `operator+`. -/
def add (a b : Vector2d) : Vector2d := ⟨a.x + b.x, a.y + b.y⟩

/-- Componentwise difference, `operator-`. -/
def sub (a b : Vector2d) : Vector2d := ⟨a.x - b.x, a.y - b.y⟩

/-- Product with a scalar, `operator*(double)`. -/
def smul (a : Vector2d) (c : ℚ) : Vector2d := ⟨a.x * c, a.y * c⟩

/-- Quotient by a scalar, `operator/(double)`. -/
def sdiv (a : Vector2d) (c : ℚ) : Vector2d := ⟨a.x / c, a.y / c⟩

instance : Add Vector2d := ⟨add⟩
instance : Sub Vector2d := ⟨sub⟩
instance : HMul Vector2d ℚ Vector2d := ⟨smul⟩
instance : HDiv Vector2d ℚ Vector2d := ⟨sdiv⟩

end Vector2d

/-- A segment between two positions (`LineSegment(a, b)`). -/
structure LineSegment where
  a : Position
  b : Position
deriving DecidableEq

/-- A waypoint (`TargetPoint`): a wrapper around its `Location`. -/
structure TargetPoint where
  Location : Position
deriving DecidableEq

/-- An entry of `obstacles_`: the member functions `Path.cpp` calls on it. -/
structure Obstacle where
  isInside : Position → Bool
  intersects : LineSegment → Bool
  getValidPosition : Position → Position

/-- An entry of `corners_`: the member functions `Path.cpp` calls on it. -/
structure Corner where
  isInside : Position → Bool
  getIntersection : LineSegment → List Position

/-- The shape behind `field_` (taken to be bound, as after `initializePath`). -/
structure Field where
  isInside : Position → Bool
  getCenter : Position
  getIntersection : LineSegment → List Position

/-- What `Path.cpp` takes from outside the class: the Euclidean length of a vector
(`Vector2d::getLength`, a square root), the values that the successive calls of
`std::rand()` return, and the constant `RAND_MAX`. -/
structure Env where
  getLength : Vector2d → ℚ
  rand : ℕ → ℕ
  RAND_MAX : ℕ

/-- Modelled from the spec: `Vector2d::getDistance` is missing from the sources; it is the
Euclidean distance between two positions, the length of their difference. -/
def getDistance (E : Env) (a b : Vector2d) : ℚ := E.getLength (a - b)

/-- Modelled from the spec: `Vector2d::getNormalized` is missing from the sources; it is the
vector scaled to unit length, and the zero vector when the length is zero (no division
by zero). -/
def getNormalized (E : Env) (v : Vector2d) : Vector2d :=
  if E.getLength v = 0 then ⟨0, 0⟩ else v / E.getLength v

/-! ## Search tree -/

/-- Modelled from the spec: the class `Node` is missing from the sources; a node has a
position, an in-obstacle flag and a parent, except the root, which has no parent.  A
`const Node*` is an `Option Node`, `NULL` being `none`. -/
inductive Node where
  | root (position : Vector2d) (inObstacle : Bool) : Node
  | child (position : Vector2d) (inObstacle : Bool) (parent : Node) : Node
deriving DecidableEq

namespace Node

/-- Modelled from the spec: the accessor `position()` of the missing class `Node`. -/
def position : Node → Vector2d
  | root p _ => p
  | child p _ _ => p

/-- Modelled from the spec: the in-obstacle flag of the missing class `Node`. -/
def inObstacle : Node → Bool
  | root _ f => f
  | child _ f _ => f

end Node

/-- Modelled from the spec: the class `KdTree` is missing from the sources; it owns the
nodes created during one planning call, the designated root first and the inserted
nodes after it in insertion order. -/
structure KdTree where
  rootNode : Node
  inserted : List Node
deriving DecidableEq

namespace KdTree

/-- Modelled from the spec: the constructor `KdTree(start, startingInObstacle)` of the
missing class creates a tree containing only the root node at `start`. -/
def construct (start : Vector2d) (startingInObstacle : Bool) : KdTree :=
  ⟨Node.root start startingInObstacle, []⟩

/-- All stored nodes in insertion order, the root first. -/
def nodes (t : KdTree) : List Node := t.rootNode :: t.inserted

/-- Modelled from the spec: `KdTree::root` of the missing class. -/
def root (t : KdTree) : Node := t.rootNode

/-- Modelled from the spec: `KdTree::insert(position, inObstacle, parent)` of the missing
class creates and stores a new node and returns it; there is no duplicate detection. -/
def insert (t : KdTree) (position : Vector2d) (inObstacle : Bool) (parent : Node) :
    Node × KdTree :=
  (Node.child position inObstacle parent,
   ⟨t.rootNode, t.inserted ++ [Node.child position inObstacle parent]⟩)

/-- Scan of `nearest`: keeps the best node so far and replaces it only by a strictly
nearer one, so that the first node found wins a tie. -/
def nearestAux (E : Env) (point : Vector2d) : Node → List Node → Node
  | best, [] => best
  | best, n :: rest =>
    if getDistance E n.position point < getDistance E best.position point then
      nearestAux E point n rest
    else nearestAux E point best rest

/-- Modelled from the spec: `KdTree::nearest(point)` of the missing class returns the node
whose position minimises the Euclidean distance to `point`, scanning all stored nodes;
ties go to the first found in insertion order. -/
def nearest (E : Env) (t : KdTree) (point : Vector2d) : Node :=
  nearestAux E point t.rootNode t.inserted

/-- Modelled from the spec: `KdTree::position(node)` of the missing class. -/
def position (_t : KdTree) (n : Node) : Vector2d := n.position

/-- Modelled from the spec: `KdTree::previous(node)` of the missing class returns the
parent, or none for the root. -/
def previous (_t : KdTree) : Node → Option Node
  | Node.root _ _ => none
  | Node.child _ _ p => some p

end KdTree

/-! ## Planner state -/

/-- The members of `Path` that `Path.cpp` reads or writes. -/
structure Path where
  position_ : Position
  obstacles_ : List Obstacle
  corners_ : List Corner
  field_ : Field
  useGameField_ : Bool
  stepSize_ : ℚ
  p_dest_ : ℚ
  nr_iterations_ : ℤ
  nr_pp_steps_ : ℤ
  tree_ : Option KdTree
  CAtargetPoints_ : List TargetPoint

/-- `Path::intersectsObstacle(seg)`: true as soon as one obstacle intersects `seg`. -/
def intersectsObstacle (obstacles_ : List Obstacle) (seg : LineSegment) : Bool :=
  match obstacles_ with
  | [] => false
  | i :: rest => if i.intersects seg then true else intersectsObstacle rest seg

/-! ## Goal correction (first part of `Path::compute`) -/

/-- Lines 40-48 of `compute`: the first obstacle that contains `endPos` replaces it by its
`getValidPosition`, and the scan stops there (`break`). -/
def correctObstacles (obstacles_ : List Obstacle) (endPos : Position) : Position :=
  match obstacles_ with
  | [] => endPos
  | i :: rest =>
    if i.isInside endPos then i.getValidPosition endPos else correctObstacles rest endPos

/-- Lines 50-58 of `compute`: with `useGameField_`, a goal outside the field is replaced by
the first intersection of the field with the segment from the goal to the field centre.
`front()` of an empty intersection is undefined (`none`). -/
def correctField (useGameField_ : Bool) (field_ : Field) (endPos : Position) :
    Option Position :=
  if useGameField_ then
    if !field_.isInside endPos then
      (field_.getIntersection ⟨endPos, field_.getCenter⟩).head?
    else some endPos
  else some endPos

/-- Lines 60-70 of `compute`: the first corner zone that contains `endPos` replaces it by
the first intersection of that corner with the segment from the goal to the field centre,
and the scan stops there (`break`). -/
def correctCorners (field_ : Field) (corners_ : List Corner) (endPos : Position) :
    Option Position :=
  match corners_ with
  | [] => some endPos
  | i :: rest =>
    if i.isInside endPos then (i.getIntersection ⟨endPos, field_.getCenter⟩).head?
    else correctCorners field_ rest endPos

/-- The value of `end` when `compute` reaches the direct-path test (lines 36-70). -/
def correctedEnd (P : Path) (requestedEnd : TargetPoint) : Option Position :=
  match correctField P.useGameField_ P.field_
      (correctObstacles P.obstacles_ requestedEnd.Location) with
  | none => none
  | some e => correctCorners P.field_ P.corners_ e

/-! ## `Path::simplify` -/

/-- The erase loop of `simplify` (lines 165-167): `count` times
`erase(begin() + start_index + 1)`; erasing past the end is undefined (`none`). -/
def eraseRange (start_index : ℕ) : ℕ → List TargetPoint → Option (List TargetPoint)
  | 0, pts => some pts
  | count + 1, pts =>
    if start_index + 1 < pts.length then
      eraseRange start_index count (pts.eraseIdx (start_index + 1))
    else none

/-- The inner loop of `simplify` (lines 160-170) from the current value of `end_index`
downwards: the first `end_index > start_index + 1` whose segment from the waypoint at
`start_index` is obstacle-free triggers the erase loop and the `break`. -/
def simplifyInner (obstacles_ : List Obstacle) (pts : List TargetPoint) (start_index : ℕ) :
    ℕ → Option (List TargetPoint)
  | 0 => some pts
  | e + 1 =>
    if e + 1 > start_index + 1 then
      match pts[start_index]?, pts[e + 1]? with
      | some a, some b =>
        if !intersectsObstacle obstacles_ ⟨a.Location, b.Location⟩ then
          eraseRange start_index (e + 1 - start_index - 1) pts
        else simplifyInner obstacles_ pts start_index e
      | _, _ => none
    else some pts

/-- The outer loop of `simplify` (lines 158-171) from the current value of `start_index`.
Inside the loop the list is not empty, so that `size() - 1` does not wrap. -/
def simplifyOuter (obstacles_ : List Obstacle) (start_index : ℕ) (pts : List TargetPoint) :
    Option (List TargetPoint) :=
  if _h : start_index < pts.length then
    match _h2 : simplifyInner obstacles_ pts start_index (pts.length - 1) with
    | some pts2 => simplifyOuter obstacles_ (start_index + 1) pts2
    | none => none
  else some pts
termination_by pts.length - start_index
decreasing_by
  have erase_le : ∀ (c : ℕ) (l out : List TargetPoint),
      eraseRange start_index c l = some out → out.length ≤ l.length := by
    intro c
    induction c with
    | zero => intro l out h; simp [eraseRange] at h; simp [h]
    | succ c ih =>
      intro l out h
      simp only [eraseRange] at h
      split at h
      · have h1 := ih _ _ h
        have h2 : (l.eraseIdx (start_index + 1)).length ≤ l.length := by
          rw [List.length_eraseIdx]; split <;> omega
        omega
      · simp at h
  have inner_le : ∀ (e : ℕ) (out : List TargetPoint),
      simplifyInner obstacles_ pts start_index e = some out → out.length ≤ pts.length := by
    intro e
    induction e with
    | zero => intro out h; simp [simplifyInner] at h; simp [h]
    | succ e ih =>
      intro out h
      simp only [simplifyInner] at h
      split at h
      · split at h
        · split at h
          · exact erase_le _ _ _ h
          · exact ih _ h
        · simp at h
      · simp at h; simp [h]
  have := inner_le _ _ _h2
  omega

/-- The body of `Path::simplify()` as a function of the obstacle list and the waypoint
list `CAtargetPoints_`. -/
def simplifyPoints (obstacles_ : List Obstacle) (pts : List TargetPoint) :
    Option (List TargetPoint) :=
  simplifyOuter obstacles_ 0 pts

/-- `Path::simplify()`. -/
def simplify (P : Path) : Option Path :=
  match simplifyPoints P.obstacles_ P.CAtargetPoints_ with
  | none => none
  | some pts => some { P with CAtargetPoints_ := pts }

/-! ## `Path::cutCorners` -/

/-- The `size_t` value of `CAtargetPoints_.size() - 1`: unsigned 64-bit subtraction, which
wraps to `2^64 - 1` on the empty vector. -/
def sizeMinusOne (size : ℕ) : ℕ := if size = 0 then 2 ^ 64 - 1 else size - 1

/-- The `while (step > 0.01)` loop of `cutCorners` (lines 195-209); the result is the final
value of `lastGood`. -/
def cutSearch (obstacles_ : List Obstacle) (mid diffLeft diffRight : Vector2d)
    (step dist lastGood : ℚ) : ℚ :=
  if _h : step > 0.01 then
    if !intersectsObstacle obstacles_ ⟨mid + diffLeft * dist, mid + diffRight * dist⟩ then
      cutSearch obstacles_ mid diffLeft diffRight (step / 2) (dist + step / 2) dist
    else
      cutSearch obstacles_ mid diffLeft diffRight (step / 2) (dist - step / 2) lastGood
  else lastGood
termination_by ⌈100 * step⌉₊
decreasing_by
  all_goals
    rw [Nat.lt_ceil]
    have h1 : (0.01 : ℚ) < step := _h
    norm_num at h1
    rcases le_or_lt 2 (100 * step) with h2 | h2
    · have h3 := Nat.ceil_lt_add_one (show (0 : ℚ) ≤ 100 * (step / 2) by linarith)
      linarith
    · have h3 : ⌈100 * (step / 2)⌉₊ ≤ 1 := by
        rw [Nat.ceil_le]; push_cast; linarith
      have h4 : ((⌈100 * (step / 2)⌉₊ : ℕ) : ℚ) ≤ 1 := by exact_mod_cast h3
      linarith

/-- The offset `lastGood` that `cutCorners` computes for the interior waypoint `mid` with
neighbours `left` and `right` (lines 183-209). -/
def cornerOffset (E : Env) (obstacles_ : List Obstacle) (left mid right : Vector2d) : ℚ :=
  cutSearch obstacles_ mid (getNormalized E (left - mid)) (getNormalized E (right - mid))
    (min (E.getLength (left - mid)) (E.getLength (right - mid)) / 2)
    (min (E.getLength (left - mid)) (E.getLength (right - mid)) / 2) 0

/-- The `for` loop of `cutCorners` (lines 178-218) from the current value of `i`; the
computation of `lastGood` for the waypoint at `i` (lines 183-209) is the argument
`lastGoodOf`, and the unit direction from `mid` to a neighbour is `direction mid neighbour`.
The body reads the waypoints at `i - 1`, `i` and `i + 1`; reading past the end is
undefined (`none`).  With a positive `lastGood` the waypoint at `i` is overwritten by
`mid + diffLeft * lastGood`, then `mid + diffRight * lastGood` is inserted at
`begin() + i`, that is in front of it, and `i` is advanced twice. -/
def cutCornersLoop (lastGoodOf : Vector2d → Vector2d → Vector2d → ℚ)
    (direction : Vector2d → Vector2d → Vector2d) (i : ℕ) (pts : List TargetPoint) :
    Option (List TargetPoint) :=
  if i < sizeMinusOne pts.length then
    if _h : i + 1 < pts.length then
      if lastGoodOf pts[i - 1].Location pts[i].Location pts[i + 1].Location > 0 then
        cutCornersLoop lastGoodOf direction (i + 1 + 1)
          ((pts.set i ⟨pts[i].Location + direction pts[i].Location pts[i - 1].Location
                * lastGoodOf pts[i - 1].Location pts[i].Location pts[i + 1].Location⟩).insertIdx
            i ⟨pts[i].Location + direction pts[i].Location pts[i + 1].Location
                * lastGoodOf pts[i - 1].Location pts[i].Location pts[i + 1].Location⟩)
      else cutCornersLoop lastGoodOf direction (i + 1) pts
    else none
  else some pts
termination_by pts.length - i
decreasing_by
  all_goals
    try rw [List.length_insertIdx _ _ (by rw [List.length_set]; omega), List.length_set]
    omega

/-- The body of `Path::cutCorners()` as a function of the obstacle list and the waypoint
list `CAtargetPoints_`. -/
def cutCornersPoints (E : Env) (obstacles_ : List Obstacle) (pts : List TargetPoint) :
    Option (List TargetPoint) :=
  cutCornersLoop (cornerOffset E obstacles_) (fun mid p => getNormalized E (p - mid)) 1 pts

/-- `Path::cutCorners()`. -/
def cutCorners (E : Env) (P : Path) : Option Path :=
  match cutCornersPoints E P.obstacles_ P.CAtargetPoints_ with
  | none => none
  | some pts => some { P with CAtargetPoints_ := pts }

/-! ## `Path::randomState` and `Path::extend` -/

/-- `Path::randomState()`: two calls of `std::rand()`, numbers `k` and `k + 1` of the
stream, scaled into the nominal field rectangle.  C++ does not fix the order in which
the two constructor arguments are evaluated; the first call is taken for `x`. -/
def randomState (E : Env) (k : ℕ) : Vector2d :=
  ⟨((E.rand k : ℚ) / (E.RAND_MAX : ℚ)) * (1.385 + 1.425) - 1.425,
   ((E.rand (k + 1) : ℚ) / (E.RAND_MAX : ℚ)) * (0.880 + 0.882) - 0.880⟩

/-- The loop over `corners_` in `extend` (lines 259-265): some corner contains `p`. -/
def insideCorner (corners_ : List Corner) (p : Position) : Bool :=
  match corners_ with
  | [] => false
  | i :: rest => if i.isInside p then true else insideCorner rest p

/-- The loop over `obstacles_` in `extend` (lines 266-273): some obstacle contains `p`. -/
def insideObstacle (obstacles_ : List Obstacle) (p : Position) : Bool :=
  match obstacles_ with
  | [] => false
  | i :: rest => if i.isInside p then true else insideObstacle rest p

/-- The candidate position `extended` of `extend` (lines 234-248): one step from
`fromPos` towards `toPos`, the displacement being scaled to length `stepSize_` when it is
longer than that. -/
def extendCandidate (E : Env) (stepSize_ : ℚ) (fromPos toPos : Vector2d) : Vector2d :=
  if E.getLength (toPos - fromPos) > stepSize_ then
    fromPos + (toPos - fromPos) * stepSize_ / E.getLength (toPos - fromPos)
  else fromPos + (toPos - fromPos)

/-- `Path::extend(fromNode, to)`, the argument `to` being `toPos` here: the returned node
(`none` is `NULL`) and the planner afterwards.  Without a tree the dereference of `tree_`
is undefined (outer `none`). -/
def extend (E : Env) (P : Path) (fromNode : Node) (toPos : Vector2d) :
    Option (Option Node × Path) :=
  match P.tree_ with
  | none => none
  | some tree =>
    if E.getLength (toPos - tree.position fromNode) = 0 then some (none, P)
    else if P.useGameField_ &&
        !P.field_.isInside (extendCandidate E P.stepSize_ (tree.position fromNode) toPos) then
      some (none, P)
    else if insideCorner P.corners_
        (extendCandidate E P.stepSize_ (tree.position fromNode) toPos) then
      some (none, P)
    else if insideObstacle P.obstacles_
        (extendCandidate E P.stepSize_ (tree.position fromNode) toPos) then
      some (none, P)
    else
      some (some (tree.insert (extendCandidate E P.stepSize_ (tree.position fromNode) toPos)
              false fromNode).1,
            { P with tree_ := some (tree.insert
              (extendCandidate E P.stepSize_ (tree.position fromNode) toPos) false fromNode).2 })

/-! ## `Path::compute` -/

/-- The target of one iteration of the search loop (lines 99-107): call number `k` of
`std::rand()` decides between the goal and a random state. -/
def selectTarget (E : Env) (p_dest_ : ℚ) (endPos : Position) (k : ℕ) : Vector2d × ℕ :=
  if (E.rand k : ℚ) / (E.RAND_MAX : ℚ) < p_dest_ then (endPos, k + 1)
  else (randomState E (k + 1), k + 3)

/-- The search loop of `compute` (lines 91-132) from the current value of `iteration`;
`nr_iterations` is the member `nr_iterations_`, which the loop does not change,
`resetStepSize` the local of that name, and `k` counts the calls of `std::rand()` made so
far.  A rejected extension grows `stepSize_` by 5% (`continue`), an accepted one resets
it, and a node nearer than `0.001` to the goal ends the loop (`break`). -/
def searchLoop (E : Env) (endPos : Position) (resetStepSize : ℚ) (nr_iterations : ℤ)
    (iteration : ℤ) (k : ℕ) (P : Path) : Option Path :=
  if _h : iteration < nr_iterations then
    match P.tree_ with
    | none => none
    | some tree =>
      match extend E P (tree.nearest E (selectTarget E P.p_dest_ endPos k).1)
          (selectTarget E P.p_dest_ endPos k).1 with
      | none => none
      | some (none, P2) =>
        searchLoop E endPos resetStepSize nr_iterations (iteration + 1)
          (selectTarget E P.p_dest_ endPos k).2
          { P2 with stepSize_ := P2.stepSize_ + P2.stepSize_ * 0.05 }
      | some (some extendedNode, P2) =>
        if getDistance E extendedNode.position endPos < 0.001 then
          some { P2 with stepSize_ := resetStepSize }
        else
          searchLoop E endPos resetStepSize nr_iterations (iteration + 1)
            (selectTarget E P.p_dest_ endPos k).2 { P2 with stepSize_ := resetStepSize }
  else some P
termination_by (nr_iterations - iteration).toNat
decreasing_by
  all_goals omega

/-- The extraction loop of `compute` (lines 138-143): the position of the node is put in
front of the list and the walk continues with its parent until there is none. -/
def extractPath : Node → List TargetPoint → List TargetPoint
  | Node.root p _, pts => ⟨p⟩ :: pts
  | Node.child p _ parent, pts => extractPath parent (⟨p⟩ :: pts)

/-- The post-processing loop of `compute` (lines 146-150): `n` rounds of `simplify`
followed by `cutCorners`; `compute` runs it with `n = max(0, nr_pp_steps_)`. -/
def postProcess (E : Env) : ℕ → Path → Option Path
  | 0, P => some P
  | n + 1, P =>
    match simplify P with
    | none => none
    | some P1 =>
      match cutCorners E P1 with
      | none => none
      | some P2 => postProcess E n P2

/-- The tree-search branch of `compute` (lines 83-152) for the corrected goal `endPos`. -/
def computeSearch (E : Env) (P : Path) (endPos : Position) : Option Path :=
  match searchLoop E endPos P.stepSize_ P.nr_iterations_ 1 0
      { P with tree_ := some (KdTree.construct P.position_ false) } with
  | none => none
  | some P1 =>
    match P1.tree_ with
    | none => none
    | some tree =>
      match postProcess E P.nr_pp_steps_.toNat
          { P1 with
            stepSize_ := P.stepSize_
            CAtargetPoints_ := extractPath (tree.nearest E endPos) P1.CAtargetPoints_ } with
      | none => none
      | some P2 => simplify P2

/-- `Path::compute(requestedEnd)`: the planner after the call, or `none` when the call
runs into undefined behaviour. -/
def compute (E : Env) (P : Path) (requestedEnd : TargetPoint) : Option Path :=
  match correctedEnd { P with CAtargetPoints_ := [] } requestedEnd with
  | none => none
  | some endPos =>
    if !intersectsObstacle P.obstacles_ ⟨P.position_, endPos⟩ then
      some { P with CAtargetPoints_ := [⟨endPos⟩] }
    else computeSearch E { P with CAtargetPoints_ := [] } endPos

/-! ## Notions used in the statements -/

/-- No segment between consecutive waypoints of `pts` intersects an obstacle. -/
def segmentsFree (obstacles_ : List Obstacle) (pts : List TargetPoint) : Prop :=
  List.Chain' (fun a b => intersectsObstacle obstacles_ ⟨a.Location, b.Location⟩ = false) pts

instance (obstacles_ : List Obstacle) (pts : List TargetPoint) :
    Decidable (segmentsFree obstacles_ pts) := by
  unfold segmentsFree
  infer_instance

/-- A sequence of shortcuts: each step removes the non-empty run `M` of waypoints between
two waypoints `a` and `b` whose connecting segment intersects no obstacle. -/
inductive Shortcuts (obstacles_ : List Obstacle) : List TargetPoint → List TargetPoint → Prop
  | done (pts : List TargetPoint) : Shortcuts obstacles_ pts pts
  | cut (A : List TargetPoint) (a : TargetPoint) (M : List TargetPoint) (b : TargetPoint)
      (B out : List TargetPoint) (hM : M ≠ [])
      (hfree : intersectsObstacle obstacles_ ⟨a.Location, b.Location⟩ = false)
      (rest : Shortcuts obstacles_ (A ++ a :: b :: B) out) :
      Shortcuts obstacles_ (A ++ a :: (M ++ b :: B)) out

/-- The rejection condition of `extend` in the words of the specification: the distance
from `fromNode` to the target is zero, or the game field is enabled and the candidate
lies outside it, or the candidate lies inside a corner zone, or the candidate lies inside
an obstacle. -/
def extendRejects (E : Env) (P : Path) (tree : KdTree) (fromNode : Node) (toPos : Vector2d) :
    Prop :=
  E.getLength (toPos - tree.position fromNode) = 0 ∨
  (P.useGameField_ = true ∧
    P.field_.isInside (extendCandidate E P.stepSize_ (tree.position fromNode) toPos) = false) ∨
  (∃ c ∈ P.corners_,
    c.isInside (extendCandidate E P.stepSize_ (tree.position fromNode) toPos) = true) ∨
  (∃ o ∈ P.obstacles_,
    o.isInside (extendCandidate E P.stepSize_ (tree.position fromNode) toPos) = true)

/-- The position `p` passes the three tests of `extend`: it is inside no obstacle, inside
no corner zone and, with `useGameField_`, inside the field. -/
def validPoint (P : Path) (p : Position) : Prop :=
  (∀ o ∈ P.obstacles_, o.isInside p = false) ∧ (∀ c ∈ P.corners_, c.isInside p = false) ∧
    (P.useGameField_ = true → P.field_.isInside p = true)

/-- Every node on the parent chain of the node passes the tests of `extend`, up to the
root, which is at the start position of the planner. -/
def Node.checked (P : Path) : Node → Prop
  | Node.root p _ => p = P.position_
  | Node.child p _ parent => validPoint P p ∧ parent.checked P

/-- The invariant of the search loop of `compute` started on `P`: the planner `Q` differs
from `P` at most in the step size and in the tree, which is `tree`; its root is at the
start position and every inserted node passes the tests of `extend`, as do its
ancestors. -/
structure SearchInv (P Q : Path) (tree : KdTree) : Prop where
  position : Q.position_ = P.position_
  obstacles : Q.obstacles_ = P.obstacles_
  corners : Q.corners_ = P.corners_
  field : Q.field_ = P.field_
  useGameField : Q.useGameField_ = P.useGameField_
  p_dest : Q.p_dest_ = P.p_dest_
  nr_iterations : Q.nr_iterations_ = P.nr_iterations_
  nr_pp_steps : Q.nr_pp_steps_ = P.nr_pp_steps_
  points : Q.CAtargetPoints_ = P.CAtargetPoints_
  tree_eq : Q.tree_ = some tree
  root_eq : tree.rootNode = Node.root P.position_ false
  nodes : ∀ n ∈ tree.inserted, validPoint P n.position ∧ n.checked P

/-- The chamfer of `cutCorners` at offset `d`: the segment from `mid + diffLeft * d` to
`mid + diffRight * d` intersects no obstacle. -/
def chamferFree (obstacles_ : List Obstacle) (mid diffLeft diffRight : Vector2d) (d : ℚ) :
    Prop :=
  intersectsObstacle obstacles_ ⟨mid + diffLeft * d, mid + diffRight * d⟩ = false

/-- No two waypoints of `pts` that are not neighbours can be joined by an obstacle-free
segment: for all indices `i < j` with `j > i + 1` the segment from the waypoint at `i` to
the waypoint at `j` intersects an obstacle. -/
def noShortcut (obstacles_ : List Obstacle) (pts : List TargetPoint) : Prop :=
  ∀ (i j : ℕ) (a b : TargetPoint), i + 1 < j → pts[i]? = some a → pts[j]? = some b →
    intersectsObstacle obstacles_ ⟨a.Location, b.Location⟩ = true

/-- The part of `noShortcut` that `simplify` has established when its outer loop reaches
`start_index = s`: the condition for the first indices `i < s`. -/
def noShortcutBelow (obstacles_ : List Obstacle) (s : ℕ) (pts : List TargetPoint) : Prop :=
  ∀ (i j : ℕ) (a b : TargetPoint), i < s → i + 1 < j → pts[i]? = some a → pts[j]? = some b →
    intersectsObstacle obstacles_ ⟨a.Location, b.Location⟩ = true

/-- The number of parent links between the node and the root of its chain. -/
def Node.depth : Node → ℕ
  | Node.root _ _ => 0
  | Node.child _ _ parent => parent.depth + 1

/-- The search loop of `compute` with a ghost counter: the same loop as `searchLoop`, which
in addition counts in `attempts` the calls of `extend` made so far. -/
def searchLoopCount (E : Env) (endPos : Position) (resetStepSize : ℚ) (nr_iterations : ℤ)
    (iteration : ℤ) (k : ℕ) (P : Path) (attempts : ℕ) : Option (Path × ℕ) :=
  if _h : iteration < nr_iterations then
    match P.tree_ with
    | none => none
    | some tree =>
      match extend E P (tree.nearest E (selectTarget E P.p_dest_ endPos k).1)
          (selectTarget E P.p_dest_ endPos k).1 with
      | none => none
      | some (none, P2) =>
        searchLoopCount E endPos resetStepSize nr_iterations (iteration + 1)
          (selectTarget E P.p_dest_ endPos k).2
          { P2 with stepSize_ := P2.stepSize_ + P2.stepSize_ * 0.05 } (attempts + 1)
      | some (some extendedNode, P2) =>
        if getDistance E extendedNode.position endPos < 0.001 then
          some ({ P2 with stepSize_ := resetStepSize }, attempts + 1)
        else
          searchLoopCount E endPos resetStepSize nr_iterations (iteration + 1)
            (selectTarget E P.p_dest_ endPos k).2 { P2 with stepSize_ := resetStepSize }
            (attempts + 1)
  else some (P, attempts)
termination_by (nr_iterations - iteration).toNat
decreasing_by
  all_goals omega

/-- Every node of the tree is at most as deep as the number of inserted nodes. -/
def depthBound (tree : KdTree) : Prop :=
  ∀ n ∈ tree.nodes, n.depth ≤ tree.inserted.length

/-- The tree-search branch of `compute` with a ghost counter: the same branch as
`computeSearch`, which in addition returns the number of calls of `extend` made by the
search loop. -/
def computeSearchCount (E : Env) (P : Path) (endPos : Position) : Option (Path × ℕ) :=
  match searchLoopCount E endPos P.stepSize_ P.nr_iterations_ 1 0
      { P with tree_ := some (KdTree.construct P.position_ false) } 0 with
  | none => none
  | some (P1, attempts) =>
    match P1.tree_ with
    | none => none
    | some tree =>
      match postProcess E P.nr_pp_steps_.toNat
          { P1 with
            stepSize_ := P.stepSize_
            CAtargetPoints_ := extractPath (tree.nearest E endPos) P1.CAtargetPoints_ } with
      | none => none
      | some P2 =>
        match simplify P2 with
        | none => none
        | some P3 => some (P3, attempts)

/-- `Path::compute(requestedEnd)` with a ghost counter: the same function as `compute`,
which in addition returns the number of calls of `extend` made during the call; the
direct-path branch makes none. -/
def computeCount (E : Env) (P : Path) (requestedEnd : TargetPoint) : Option (Path × ℕ) :=
  match correctedEnd { P with CAtargetPoints_ := [] } requestedEnd with
  | none => none
  | some endPos =>
    if !intersectsObstacle P.obstacles_ ⟨P.position_, endPos⟩ then
      some ({ P with CAtargetPoints_ := [⟨endPos⟩] }, 0)
    else computeSearchCount E { P with CAtargetPoints_ := [] } endPos

/-- Modelled from the spec: `Vector2d::getLength` is missing from the sources; the
Euclidean length, computed with the rational square root, which is exact whenever the
length is a rational number. -/
def euclidLength (v : Vector2d) : ℚ := Rat.sqrt (v.x * v.x + v.y * v.y)

/-- An environment in which every call of `std::rand()` returns `0`. -/
def zeroRandEnv : Env := ⟨euclidLength, fun _ => 0, 2147483647⟩

/-- Modelled from the spec: an axis-parallel rectangular field with corners `(-x, -y)` and
`(x, y)` and centre `(0, 0)`.  `getIntersection` is given for the segments `compute` passes
to it, those from a point to the centre: no crossing when the point is inside, and else
the point where the segment crosses the boundary. -/
def rectField (x y : ℚ) : Field :=
  ⟨fun p => decide (-x ≤ p.x ∧ p.x ≤ x ∧ -y ≤ p.y ∧ p.y ≤ y), ⟨0, 0⟩,
   fun s => if -x ≤ s.a.x ∧ s.a.x ≤ x ∧ -y ≤ s.a.y ∧ s.a.y ≤ y then []
     else [s.a / max (|s.a.x| / x) (|s.a.y| / y)]⟩

/-- Squared distance from the point `c` to the segment `s`: the distance to the nearest
point of the segment, found by projecting `c` on the line and clamping to the end points. -/
def distSqToSegment (c : Position) (s : LineSegment) : ℚ :=
  if (s.b.x - s.a.x) ^ 2 + (s.b.y - s.a.y) ^ 2 = 0 then
    (c.x - s.a.x) ^ 2 + (c.y - s.a.y) ^ 2
  else
    (c.x - (s.a.x + (s.b.x - s.a.x) * max 0 (min 1
        (((c.x - s.a.x) * (s.b.x - s.a.x) + (c.y - s.a.y) * (s.b.y - s.a.y))
          / ((s.b.x - s.a.x) ^ 2 + (s.b.y - s.a.y) ^ 2))))) ^ 2
    + (c.y - (s.a.y + (s.b.y - s.a.y) * max 0 (min 1
        (((c.x - s.a.x) * (s.b.x - s.a.x) + (c.y - s.a.y) * (s.b.y - s.a.y))
          / ((s.b.x - s.a.x) ^ 2 + (s.b.y - s.a.y) ^ 2))))) ^ 2

/-- Modelled from the spec: a disc-shaped obstacle (a robot) with centre `c` and radius
`r`.  A point is inside when its distance to the centre is at most `r`, a segment
intersects when some point of it is inside, and the valid position of a point is the
point of the boundary circle in its direction from the centre. -/
def discObstacle (c : Position) (r : ℚ) : Obstacle :=
  ⟨fun p => decide ((p.x - c.x) ^ 2 + (p.y - c.y) ^ 2 ≤ r ^ 2),
   fun s => decide (distSqToSegment c s ≤ r ^ 2),
   fun p => if euclidLength (p - c) = 0 then c + (⟨r, 0⟩ : Vector2d)
     else c + (p - c) * (r / euclidLength (p - c))⟩

/-- A planner on an empty field of 2.8 m by 1.76 m, standing at the centre. -/
def emptyFieldPath : Path :=
  { position_ := ⟨0, 0⟩
    obstacles_ := []
    corners_ := []
    field_ := rectField 1.4 0.88
    useGameField_ := true
    stepSize_ := 0.1
    p_dest_ := 0.5
    nr_iterations_ := 100
    nr_pp_steps_ := 2
    tree_ := none
    CAtargetPoints_ := [⟨⟨1, 1⟩⟩, ⟨⟨2, 2⟩⟩] }

/-- A planner at the centre of the field with one robot of radius 0.1 at `(0.5, 0)`. -/
def oneRobotPath : Path :=
  { emptyFieldPath with obstacles_ := [discObstacle ⟨0.5, 0⟩ 0.1] }

/-- A planner at the centre of the field with one robot of radius 0.1 at `(1.35, 0)`,
next to the field boundary `x = 1.4`. -/
def edgeRobotPath : Path :=
  { emptyFieldPath with obstacles_ := [discObstacle ⟨1.35, 0⟩ 0.1] }

/-- A planner at the centre of the field with robots of radius 0.1 at `(0.5, 0)` and at
`(0.55, 0)`, which overlap. -/
def twoRobotPath : Path :=
  { emptyFieldPath with obstacles_ := [discObstacle ⟨0.5, 0⟩ 0.1, discObstacle ⟨0.55, 0⟩ 0.1] }

/-- A planner with a robot of radius 0.1 at `(0.5, 0)` and the detour
`(0, 0), (0.25, 0.25), (0.5, 0.25), (0.75, 0.25), (1, 0)` around it. -/
def detourPath : Path :=
  { oneRobotPath with
    CAtargetPoints_ := [⟨⟨0, 0⟩⟩, ⟨⟨0.25, 0.25⟩⟩, ⟨⟨0.5, 0.25⟩⟩, ⟨⟨0.75, 0.25⟩⟩, ⟨⟨1, 0⟩⟩] }

/-- A planner in the middle of a search: the tree holds only the root at `(0, 0)`. -/
def searchingPath : Path :=
  { oneRobotPath with tree_ := some (KdTree.construct ⟨0, 0⟩ false) }

/-- A planner without obstacles whose waypoint list is the right-angled corner
`(0, 0), (0.16, 0), (0.16, 0.16)`. -/
def cornerPath : Path :=
  { emptyFieldPath with CAtargetPoints_ := [⟨⟨0, 0⟩⟩, ⟨⟨0.16, 0⟩⟩, ⟨⟨0.16, 0.16⟩⟩] }

/-- The corner `(0, 0), (0.16, 0), (0.16, 0.16)` with a robot of radius 0.02 at
`(0.08, 0.09)`, which touches none of the two segments. -/
def robotCornerPath : Path :=
  { cornerPath with obstacles_ := [discObstacle ⟨0.08, 0.09⟩ 0.02] }

/-- A planner at `(0, 0)` with a robot of radius 0.03 at `(0.05, 0)`. -/
def blockedPath : Path :=
  { emptyFieldPath with
    obstacles_ := [discObstacle ⟨0.05, 0⟩ 0.03]
    CAtargetPoints_ := [] }

/-- The planner `blockedPath` after the search for the goal `(0.1, 0)`: the tree holds the
root and one node at the goal. -/
def blockedPathSearched : Path :=
  { blockedPath with
    tree_ := some ⟨Node.root ⟨0, 0⟩ false, [Node.child ⟨0.1, 0⟩ false (Node.root ⟨0, 0⟩ false)]⟩ }

/-- The planner `blockedPath` without post-processing rounds. -/
def blockedPathPlain : Path :=
  { blockedPath with nr_pp_steps_ := 0 }

/-- An environment whose calls of `std::rand()` return `0, RAND_MAX, 0, RAND_MAX, ...`. -/
def alternatingRandEnv : Env :=
  ⟨euclidLength, fun k => if k % 2 = 0 then 0 else 2147483647, 2147483647⟩

/-- The planner `blockedPath` with `nr_iterations_ = 2`: the search loop runs once. -/
def twoIterationPath : Path :=
  { blockedPath with nr_iterations_ := 2 }

/-- A planner on the empty field that still holds the tree of an earlier call, whose root
is at `(1, 0.5)`, while the planner now stands at `(0, 0)`. -/
def staleTreePath : Path :=
  { emptyFieldPath with tree_ := some (KdTree.construct ⟨1, 0.5⟩ false) }

theorem correctObstacles_none (obstacles_ : List Obstacle) (g : Position)
    (h : ∀ o ∈ obstacles_, o.isInside g = false) : correctObstacles obstacles_ g = g := by
  induction obstacles_ with
  | nil => rfl
  | cons o rest ih =>
    have ho : o.isInside g = false := h o (List.mem_cons_self _ _)
    have hr : ∀ q ∈ rest, q.isInside g = false := fun q hq => h q (List.mem_cons_of_mem _ hq)
    simp [correctObstacles, ho, ih hr]

theorem correctObstacles_first (pre post : List Obstacle) (o : Obstacle) (g : Position)
    (hpre : ∀ q ∈ pre, q.isInside g = false) (ho : o.isInside g = true) :
    correctObstacles (pre ++ o :: post) g = o.getValidPosition g := by
  induction pre with
  | nil => simp [correctObstacles, ho]
  | cons q rest ih =>
    have hq : q.isInside g = false := hpre q (List.mem_cons_self _ _)
    have hr : ∀ q ∈ rest, q.isInside g = false :=
      fun q hq => hpre q (List.mem_cons_of_mem _ hq)
    simp [correctObstacles, hq, ih hr]

theorem correctCorners_none (field_ : Field) (corners_ : List Corner) (g : Position)
    (h : ∀ c ∈ corners_, c.isInside g = false) :
    correctCorners field_ corners_ g = some g := by
  induction corners_ with
  | nil => rfl
  | cons c rest ih =>
    have hc : c.isInside g = false := h c (List.mem_cons_self _ _)
    have hr : ∀ q ∈ rest, q.isInside g = false := fun q hq => h q (List.mem_cons_of_mem _ hq)
    simp [correctCorners, hc, ih hr]

theorem correctField_inside (useGameField_ : Bool) (field_ : Field) (g : Position)
    (h : useGameField_ = true → field_.isInside g = true) :
    correctField useGameField_ field_ g = some g := by
  unfold correctField
  cases hu : useGameField_ with
  | false => simp
  | true => simp [h hu]

/-- C1: direct-path shortcut.  Whatever the start position, the requested target and the
previous content of the waypoint list are, if the segment from the start to the corrected
goal intersects no obstacle then `compute` returns with the planner unchanged except for
the waypoint list, which is exactly the one-element list holding the corrected goal. -/
theorem compute_direct_path (E : Env) (P : Path) (requestedEnd : TargetPoint)
    (endPos : Position) (hEnd : correctedEnd P requestedEnd = some endPos)
    (hFree : intersectsObstacle P.obstacles_ ⟨P.position_, endPos⟩ = false) :
    compute E P requestedEnd = some { P with CAtargetPoints_ := [⟨endPos⟩] } ∧
    ∀ P2, compute E P requestedEnd = some P2 → P2.CAtargetPoints_ = [⟨endPos⟩] := by
  have hEnd2 : correctedEnd { P with CAtargetPoints_ := [] } requestedEnd = some endPos := hEnd
  have hc : compute E P requestedEnd = some { P with CAtargetPoints_ := [⟨endPos⟩] } := by
    simp [compute, hEnd2, hFree]
  refine ⟨hc, ?_⟩
  intro P2 h2
  rw [hc] at h2
  cases h2
  rfl

/-- Witness of C1: on the empty field the goal `(1, 0.5)` is kept and replaces the two
waypoints of the previous call. -/
theorem compute_direct_path_witness :
    compute zeroRandEnv emptyFieldPath ⟨⟨1, 0.5⟩⟩
        = some { emptyFieldPath with CAtargetPoints_ := [⟨⟨1, 0.5⟩⟩] } ∧
      ∀ P2, compute zeroRandEnv emptyFieldPath ⟨⟨1, 0.5⟩⟩ = some P2 →
        P2.CAtargetPoints_ = [⟨⟨1, 0.5⟩⟩] :=
  compute_direct_path zeroRandEnv emptyFieldPath ⟨⟨1, 0.5⟩⟩ ⟨1, 0.5⟩
    (by norm_num [correctedEnd, correctField, correctObstacles, correctCorners,
      emptyFieldPath, rectField])
    (by simp [intersectsObstacle, emptyFieldPath])

theorem correctedEnd_of_valid (P : Path) (requestedEnd : TargetPoint)
    (hObs : ∀ o ∈ P.obstacles_, o.isInside requestedEnd.Location = false)
    (hCor : ∀ c ∈ P.corners_, c.isInside requestedEnd.Location = false)
    (hField : P.useGameField_ = true → P.field_.isInside requestedEnd.Location = true) :
    correctedEnd P requestedEnd = some requestedEnd.Location := by
  simp [correctedEnd, correctObstacles_none _ _ hObs, correctField_inside _ _ _ hField,
    correctCorners_none _ _ _ hCor]

/-- C4: goal correction is the identity on valid goals.  A requested goal that is inside no
obstacle, inside no corner zone and, with `useGameField_`, inside the field is the goal
`compute` works with: the direct-path test is made on the segment from the start to the
requested goal, and the tree search is run for the requested goal. -/
theorem correctedEnd_valid_goal (E : Env) (P : Path) (requestedEnd : TargetPoint)
    (hObs : ∀ o ∈ P.obstacles_, o.isInside requestedEnd.Location = false)
    (hCor : ∀ c ∈ P.corners_, c.isInside requestedEnd.Location = false)
    (hField : P.useGameField_ = true → P.field_.isInside requestedEnd.Location = true) :
    correctedEnd P requestedEnd = some requestedEnd.Location ∧
    compute E P requestedEnd =
      if !intersectsObstacle P.obstacles_ ⟨P.position_, requestedEnd.Location⟩ then
        some { P with CAtargetPoints_ := [⟨requestedEnd.Location⟩] }
      else computeSearch E { P with CAtargetPoints_ := [] } requestedEnd.Location := by
  have h1 : correctedEnd P requestedEnd = some requestedEnd.Location :=
    correctedEnd_of_valid P requestedEnd hObs hCor hField
  have h2 : correctedEnd { P with CAtargetPoints_ := [] } requestedEnd
      = some requestedEnd.Location := h1
  refine ⟨h1, ?_⟩
  simp only [compute, h2]

/-- Witness of C4: the goal `(1, 0.5)` is outside the robot at `(0.5, 0)` and inside the
field. -/
theorem correctedEnd_valid_goal_witness :
    correctedEnd oneRobotPath ⟨⟨1, 0.5⟩⟩ = some ⟨1, 0.5⟩ ∧
    compute zeroRandEnv oneRobotPath ⟨⟨1, 0.5⟩⟩ =
      if !intersectsObstacle oneRobotPath.obstacles_ ⟨oneRobotPath.position_, ⟨1, 0.5⟩⟩ then
        some { oneRobotPath with CAtargetPoints_ := [⟨⟨1, 0.5⟩⟩] }
      else computeSearch zeroRandEnv { oneRobotPath with CAtargetPoints_ := [] } ⟨1, 0.5⟩ :=
  correctedEnd_valid_goal zeroRandEnv oneRobotPath ⟨⟨1, 0.5⟩⟩
    (by
      intro o ho
      simp only [oneRobotPath, List.mem_singleton] at ho
      subst ho
      norm_num [discObstacle])
    (by intro c hc; simp [oneRobotPath, emptyFieldPath] at hc)
    (by intro _; norm_num [oneRobotPath, emptyFieldPath, rectField])

theorem euclidLength_axis_x (a : ℚ) : euclidLength ⟨a, 0⟩ = |a| := by
  unfold euclidLength
  simp only [mul_zero, add_zero]
  exact Rat.sqrt_eq a

/-- Counterexample to C5 as stated: the goal `(1.39, 0)` is inside the only obstacle, whose
valid position for it is `(1.45, 0)`; that point is outside the field, so the field
correction moves it to `(1.4, 0)`, which is the goal `compute` works with. -/
theorem correctedEnd_obstacle_counterexample :
    edgeRobotPath.obstacles_ = [discObstacle ⟨1.35, 0⟩ 0.1] ∧
    (discObstacle ⟨1.35, 0⟩ 0.1).isInside ⟨1.39, 0⟩ = true ∧
    (discObstacle ⟨1.35, 0⟩ 0.1).getValidPosition ⟨1.39, 0⟩ = ⟨1.45, 0⟩ ∧
    correctedEnd edgeRobotPath ⟨⟨1.39, 0⟩⟩ = some ⟨1.4, 0⟩ ∧
    correctedEnd edgeRobotPath ⟨⟨1.39, 0⟩⟩
      ≠ some ((discObstacle ⟨1.35, 0⟩ 0.1).getValidPosition ⟨1.39, 0⟩) := by
  have hlen : euclidLength ((⟨1.39, 0⟩ : Vector2d) - ⟨1.35, 0⟩) = 0.04 := by
    have h := euclidLength_axis_x 0.04
    have e : ((⟨1.39, 0⟩ : Vector2d) - ⟨1.35, 0⟩) = ⟨0.04, 0⟩ := by
      show Vector2d.sub _ _ = _
      simp only [Vector2d.sub]
      norm_num
    rw [e, h]
    norm_num [abs_of_pos]
  have hin : (discObstacle ⟨1.35, 0⟩ 0.1).isInside ⟨1.39, 0⟩ = true := by
    norm_num [discObstacle]
  have hvalid : (discObstacle ⟨1.35, 0⟩ 0.1).getValidPosition ⟨1.39, 0⟩ = ⟨1.45, 0⟩ := by
    simp only [discObstacle, hlen]
    norm_num
    show Vector2d.add _ (Vector2d.smul (Vector2d.sub _ _) _) = _
    simp only [Vector2d.add, Vector2d.smul, Vector2d.sub]
    norm_num
  have hend : correctedEnd edgeRobotPath ⟨⟨1.39, 0⟩⟩ = some ⟨1.4, 0⟩ := by
    simp only [correctedEnd, edgeRobotPath, emptyFieldPath, correctObstacles, hin, hvalid]
    norm_num [correctField, rectField, correctCorners]
    show Vector2d.sdiv _ _ = _
    simp only [Vector2d.sdiv]
    norm_num [abs_of_pos]
  refine ⟨rfl, hin, hvalid, hend, ?_⟩
  rw [hend, hvalid]
  intro h
  injection h with h
  injection h with hx hy
  norm_num at hx

/-- C5, amended: when the requested goal is inside an obstacle, the obstacle step of the
goal correction yields `getValidPosition` of the first obstacle in list order that
contains it, whatever the later obstacles are; the goal `compute` works with is that point
passed through the field and corner corrections, and it is that point itself when the
point is inside the field (with `useGameField_`) and in no corner zone. -/
theorem correctedEnd_goal_in_obstacle (P : Path) (requestedEnd : TargetPoint)
    (pre post : List Obstacle) (o : Obstacle)
    (hsplit : P.obstacles_ = pre ++ o :: post)
    (hpre : ∀ q ∈ pre, q.isInside requestedEnd.Location = false)
    (ho : o.isInside requestedEnd.Location = true) :
    correctObstacles P.obstacles_ requestedEnd.Location
      = o.getValidPosition requestedEnd.Location ∧
    correctedEnd P requestedEnd =
      (correctField P.useGameField_ P.field_ (o.getValidPosition requestedEnd.Location)).bind
        (correctCorners P.field_ P.corners_) ∧
    ((P.useGameField_ = true →
        P.field_.isInside (o.getValidPosition requestedEnd.Location) = true) →
      (∀ c ∈ P.corners_, c.isInside (o.getValidPosition requestedEnd.Location) = false) →
      correctedEnd P requestedEnd = some (o.getValidPosition requestedEnd.Location)) := by
  have h1 : correctObstacles P.obstacles_ requestedEnd.Location
      = o.getValidPosition requestedEnd.Location := by
    rw [hsplit]
    exact correctObstacles_first pre post o _ hpre ho
  have h2 : correctedEnd P requestedEnd =
      (correctField P.useGameField_ P.field_ (o.getValidPosition requestedEnd.Location)).bind
        (correctCorners P.field_ P.corners_) := by
    simp only [correctedEnd, h1]
    cases correctField P.useGameField_ P.field_ (o.getValidPosition requestedEnd.Location)
      <;> rfl
  refine ⟨h1, h2, ?_⟩
  intro hF hC
  rw [h2, correctField_inside _ _ _ hF]
  exact correctCorners_none _ _ _ hC

/-- Witness of C5, amended: the goal `(0.54, 0)` is inside both robots; the first one
decides. -/
theorem correctedEnd_goal_in_obstacle_witness :
    correctObstacles twoRobotPath.obstacles_ ⟨0.54, 0⟩
      = (discObstacle ⟨0.5, 0⟩ 0.1).getValidPosition ⟨0.54, 0⟩ ∧
    correctedEnd twoRobotPath ⟨⟨0.54, 0⟩⟩ =
      (correctField twoRobotPath.useGameField_ twoRobotPath.field_
          ((discObstacle ⟨0.5, 0⟩ 0.1).getValidPosition ⟨0.54, 0⟩)).bind
        (correctCorners twoRobotPath.field_ twoRobotPath.corners_) ∧
    ((twoRobotPath.useGameField_ = true →
        twoRobotPath.field_.isInside
          ((discObstacle ⟨0.5, 0⟩ 0.1).getValidPosition ⟨0.54, 0⟩) = true) →
      (∀ c ∈ twoRobotPath.corners_,
        c.isInside ((discObstacle ⟨0.5, 0⟩ 0.1).getValidPosition ⟨0.54, 0⟩) = false) →
      correctedEnd twoRobotPath ⟨⟨0.54, 0⟩⟩
        = some ((discObstacle ⟨0.5, 0⟩ 0.1).getValidPosition ⟨0.54, 0⟩)) :=
  correctedEnd_goal_in_obstacle twoRobotPath ⟨⟨0.54, 0⟩⟩ [] [discObstacle ⟨0.55, 0⟩ 0.1]
    (discObstacle ⟨0.5, 0⟩ 0.1) rfl (by intro q hq; simp at hq)
    (by norm_num [discObstacle])

/-! ## `simplify` only takes shortcuts -/

theorem eraseRange_mid (A : List TargetPoint) (a : TargetPoint) (M R : List TargetPoint) :
    eraseRange A.length M.length (A ++ a :: (M ++ R)) = some (A ++ a :: R) := by
  induction M with
  | nil => simp [eraseRange]
  | cons m M ih =>
    have hlen : A.length + 1 < (A ++ a :: (m :: M ++ R)).length := by
      simp only [List.length_append, List.length_cons]; omega
    have herase : (A ++ a :: (m :: M ++ R)).eraseIdx (A.length + 1) = A ++ a :: (M ++ R) := by
      rw [List.eraseIdx_append_of_length_le (by omega)]
      simp
    simp only [List.length_cons, eraseRange, hlen, if_true, herase]
    exact ih

theorem split_at_indices (pts : List TargetPoint) (s e : ℕ) (hs : s + 1 < e)
    (he : e < pts.length) :
    ∃ A a M b B, pts = A ++ a :: (M ++ b :: B) ∧ A.length = s ∧ M.length = e - s - 1 ∧
      M ≠ [] ∧ pts[s]? = some a ∧ pts[e]? = some b := by
  refine ⟨pts.take s, pts[s], (pts.drop (s + 1)).take (e - s - 1), pts[e],
    pts.drop (e + 1), ?_, ?_, ?_, ?_, ?_, ?_⟩
  · have h1 : pts = pts.take s ++ pts.drop s := (List.take_append_drop s pts).symm
    have h2 : pts.drop s = pts[s] :: pts.drop (s + 1) := List.drop_eq_getElem_cons (by omega)
    have h3 : pts.drop (s + 1) = (pts.drop (s + 1)).take (e - s - 1)
        ++ (pts.drop (s + 1)).drop (e - s - 1) := (List.take_append_drop _ _).symm
    have h4 : (pts.drop (s + 1)).drop (e - s - 1) = pts.drop e := by
      rw [List.drop_drop]; congr 1; omega
    have h5 : pts.drop e = pts[e] :: pts.drop (e + 1) := List.drop_eq_getElem_cons he
    rw [h4, h5] at h3
    rw [h3] at h2
    rw [h2] at h1
    exact h1
  · simp only [List.length_take]; omega
  · simp only [List.length_take, List.length_drop]; omega
  · intro h
    have := congrArg List.length h
    simp only [List.length_take, List.length_drop, List.length_nil] at this
    omega
  · exact List.getElem?_eq_getElem (by omega)
  · exact List.getElem?_eq_getElem he

theorem simplifyInner_spec (obstacles_ : List Obstacle) (pts : List TargetPoint) (s : ℕ)
    (_hs : s < pts.length) :
    ∀ e, e < pts.length →
      ∃ out, simplifyInner obstacles_ pts s e = some out ∧
        (out = pts ∨ ∃ A a M b B, pts = A ++ a :: (M ++ b :: B) ∧ A.length = s ∧ M ≠ [] ∧
          intersectsObstacle obstacles_ ⟨a.Location, b.Location⟩ = false ∧
          out = A ++ a :: b :: B) := by
  intro e
  induction e with
  | zero => intro _; exact ⟨pts, by simp [simplifyInner], Or.inl rfl⟩
  | succ e ih =>
    intro he
    by_cases hgt : e + 1 > s + 1
    · obtain ⟨A, a, M, b, B, hpts, hA, hMlen, hM, hsa, heb⟩ :=
        split_at_indices pts s (e + 1) hgt he
      cases hfree : intersectsObstacle obstacles_ ⟨a.Location, b.Location⟩ with
      | false =>
        refine ⟨A ++ a :: b :: B, ?_, Or.inr ⟨A, a, M, b, B, hpts, hA, hM, hfree, rfl⟩⟩
        simp only [simplifyInner, hgt, if_true, hsa, heb, hfree, Bool.not_false]
        have hcount : e + 1 - s - 1 = M.length := by omega
        rw [hcount, ← hA]
        conv_lhs => rw [hpts]
        exact eraseRange_mid A a M (b :: B)
      | true =>
        obtain ⟨out, hout, hprop⟩ := ih (by omega)
        refine ⟨out, ?_, hprop⟩
        simp only [simplifyInner, hgt, if_true, hsa, heb, hfree, Bool.not_true]
        exact hout
    · exact ⟨pts, by simp [simplifyInner, hgt], Or.inl rfl⟩

theorem simplifyOuter_shortcuts (obstacles_ : List Obstacle) :
    ∀ (n s : ℕ) (pts : List TargetPoint), pts.length - s = n →
      ∃ out, simplifyOuter obstacles_ s pts = some out ∧ Shortcuts obstacles_ pts out := by
  intro n
  induction n using Nat.strong_induction_on with
  | _ n ih =>
    intro s pts hn
    by_cases hs : s < pts.length
    · obtain ⟨mid, hmid, hprop⟩ :=
        simplifyInner_spec obstacles_ pts s hs (pts.length - 1) (by omega)
      have hle : mid.length ≤ pts.length := by
        rcases hprop with h | ⟨A, a, M, b, B, hpts, _, _, _, hmidEq⟩
        · rw [h]
        · rw [hpts, hmidEq]
          simp only [List.length_append, List.length_cons]
          omega
      obtain ⟨out, hout, hsc⟩ := ih (mid.length - (s + 1)) (by omega) (s + 1) mid rfl
      refine ⟨out, ?_, ?_⟩
      · rw [simplifyOuter]
        simp only [hs, dif_pos]
        split
        · rename_i pts2 h2
          rw [hmid] at h2
          cases h2
          exact hout
        · rename_i h2
          rw [hmid] at h2
          cases h2
      · rcases hprop with h | ⟨A, a, M, b, B, hpts, _, hM, hfree, hmidEq⟩
        · rw [h] at hsc; exact hsc
        · rw [hpts]
          rw [hmidEq] at hsc
          exact Shortcuts.cut A a M b B out hM hfree hsc
    · refine ⟨pts, ?_, Shortcuts.done pts⟩
      rw [simplifyOuter]
      simp [hs]

theorem Shortcuts.sublist {obstacles_ : List Obstacle} {pts out : List TargetPoint}
    (h : Shortcuts obstacles_ pts out) : out.Sublist pts := by
  induction h with
  | done pts => exact List.Sublist.refl pts
  | cut A a M b B out _ _ _ ih =>
    refine ih.trans ?_
    refine List.Sublist.append (List.Sublist.refl A) ?_
    exact List.Sublist.cons₂ a (List.sublist_append_right M (b :: B))

theorem Shortcuts.head_eq {obstacles_ : List Obstacle} {pts out : List TargetPoint}
    (h : Shortcuts obstacles_ pts out) : out.head? = pts.head? := by
  induction h with
  | done pts => rfl
  | cut A a M b B out _ _ _ ih =>
    rw [ih]
    cases A <;> simp

theorem Shortcuts.getLast_eq {obstacles_ : List Obstacle} {pts out : List TargetPoint}
    (h : Shortcuts obstacles_ pts out) : out.getLast? = pts.getLast? := by
  induction h with
  | done pts => rfl
  | cut A a M b B out _ _ _ ih =>
    rw [ih]
    have e1 : A ++ a :: b :: B = (A ++ [a]) ++ b :: B := by simp
    have e2 : A ++ a :: (M ++ b :: B) = (A ++ a :: M) ++ b :: B := by simp
    rw [e1, e2, List.getLast?_append_cons, List.getLast?_append_cons]

theorem Shortcuts.short {obstacles_ : List Obstacle} {pts out : List TargetPoint}
    (h : Shortcuts obstacles_ pts out) : 3 ≤ pts.length ∨ out = pts := by
  cases h with
  | done => exact Or.inr rfl
  | cut A a M b B out hM _ _ =>
    left
    cases M with
    | nil => exact absurd rfl hM
    | cons m M => simp only [List.length_append, List.length_cons]; omega

theorem Shortcuts.segmentsFree {obstacles_ : List Obstacle} {pts out : List TargetPoint}
    (h : Shortcuts obstacles_ pts out) (hfree : segmentsFree obstacles_ pts) :
    segmentsFree obstacles_ out := by
  induction h with
  | done pts => exact hfree
  | cut A a M b B out _ hab _ ih =>
    apply ih
    unfold RoboSoccer.segmentsFree at hfree ⊢
    rw [List.chain'_split] at hfree
    obtain ⟨hA, hrest⟩ := hfree
    have e : a :: (M ++ b :: B) = (a :: M) ++ b :: B := by simp
    rw [e, List.chain'_split] at hrest
    exact List.chain'_append_cons_cons.mpr ⟨hA, hab, hrest.2⟩

/-- C6: `simplify` only deletes interior waypoints.  For every waypoint list `simplify`
returns, and the new list is a subsequence of the old one in the same order, has the same
first and the same last waypoint, is not longer, and is the old list itself when that has
fewer than 3 waypoints. -/
theorem simplify_only_deletes_interior (P : Path) :
    ∃ out, simplify P = some { P with CAtargetPoints_ := out } ∧
      out.Sublist P.CAtargetPoints_ ∧ out.head? = P.CAtargetPoints_.head? ∧
      out.getLast? = P.CAtargetPoints_.getLast? ∧
      out.length ≤ P.CAtargetPoints_.length ∧
      (3 ≤ P.CAtargetPoints_.length ∨ out = P.CAtargetPoints_) := by
  obtain ⟨out, hout, hsc⟩ :=
    simplifyOuter_shortcuts P.obstacles_ _ 0 P.CAtargetPoints_ rfl
  refine ⟨out, ?_, hsc.sublist, hsc.head_eq, hsc.getLast_eq, hsc.sublist.length_le, hsc.short⟩
  simp only [simplify, simplifyPoints, hout]

/-- C7: `simplify` preserves collision-freeness.  If no segment between consecutive
waypoints intersects an obstacle before `simplify`, then `simplify` returns and no segment
between consecutive waypoints of the new list intersects an obstacle. -/
theorem simplify_preserves_segmentsFree (P : Path)
    (hfree : segmentsFree P.obstacles_ P.CAtargetPoints_) :
    ∃ out, simplify P = some { P with CAtargetPoints_ := out } ∧
      segmentsFree P.obstacles_ out := by
  obtain ⟨out, hout, hsc⟩ :=
    simplifyOuter_shortcuts P.obstacles_ _ 0 P.CAtargetPoints_ rfl
  refine ⟨out, ?_, hsc.segmentsFree hfree⟩
  simp only [simplify, simplifyPoints, hout]

/-- Witness of C7: the four segments of the detour keep a distance of more than 0.1 from
the robot. -/
theorem simplify_preserves_segmentsFree_witness :
    ∃ out, simplify detourPath = some { detourPath with CAtargetPoints_ := out } ∧
      segmentsFree detourPath.obstacles_ out :=
  simplify_preserves_segmentsFree detourPath (by
    norm_num [segmentsFree, detourPath, oneRobotPath, emptyFieldPath, intersectsObstacle,
      discObstacle, distSqToSegment])

/-! ## `extend` -/

theorem insideCorner_iff (corners_ : List Corner) (p : Position) :
    insideCorner corners_ p = true ↔ ∃ c ∈ corners_, c.isInside p = true := by
  induction corners_ with
  | nil => simp [insideCorner]
  | cons c rest ih =>
    cases hc : c.isInside p <;> simp [insideCorner, hc, ih]

theorem insideObstacle_iff (obstacles_ : List Obstacle) (p : Position) :
    insideObstacle obstacles_ p = true ↔ ∃ o ∈ obstacles_, o.isInside p = true := by
  induction obstacles_ with
  | nil => simp [insideObstacle]
  | cons o rest ih =>
    cases ho : o.isInside p <;> simp [insideObstacle, ho, ih]

theorem extend_of_rejects (E : Env) (P : Path) (tree : KdTree) (fromNode : Node)
    (toPos : Vector2d) (hT : P.tree_ = some tree)
    (h : extendRejects E P tree fromNode toPos) :
    extend E P fromNode toPos = some (none, P) := by
  unfold extend
  simp only [hT]
  rcases h with h | ⟨hu, hf⟩ | h | h
  · simp [h]
  · split
    · rfl
    · simp [hu, hf]
  · have hc := (insideCorner_iff _ _).mpr h
    split
    · rfl
    · split
      · rfl
      · simp [hc]
  · have ho := (insideObstacle_iff _ _).mpr h
    split
    · rfl
    · split
      · rfl
      · split
        · rfl
        · simp [ho]

theorem extend_of_not_rejects (E : Env) (P : Path) (tree : KdTree) (fromNode : Node)
    (toPos : Vector2d) (hT : P.tree_ = some tree)
    (h : ¬ extendRejects E P tree fromNode toPos) :
    extend E P fromNode toPos = some (some (Node.child
        (extendCandidate E P.stepSize_ (tree.position fromNode) toPos) false fromNode),
      { P with tree_ := some ⟨tree.rootNode, tree.inserted ++ [Node.child
        (extendCandidate E P.stepSize_ (tree.position fromNode) toPos) false fromNode]⟩ }) := by
  unfold extendRejects at h
  push_neg at h
  obtain ⟨h1, h2, h3, h4⟩ := h
  have hc : insideCorner P.corners_
      (extendCandidate E P.stepSize_ (tree.position fromNode) toPos) = false := by
    cases hin : insideCorner P.corners_
      (extendCandidate E P.stepSize_ (tree.position fromNode) toPos) with
    | false => rfl
    | true =>
      obtain ⟨c, hc, hci⟩ := (insideCorner_iff _ _).mp hin
      exact absurd hci (h3 c hc)
  have ho : insideObstacle P.obstacles_
      (extendCandidate E P.stepSize_ (tree.position fromNode) toPos) = false := by
    cases hin : insideObstacle P.obstacles_
      (extendCandidate E P.stepSize_ (tree.position fromNode) toPos) with
    | false => rfl
    | true =>
      obtain ⟨o, ho, hoi⟩ := (insideObstacle_iff _ _).mp hin
      exact absurd hoi (h4 o ho)
  have hf : (P.useGameField_ && !P.field_.isInside
      (extendCandidate E P.stepSize_ (tree.position fromNode) toPos)) = false := by
    cases hu : P.useGameField_ with
    | false => rfl
    | true =>
      have := h2 hu
      simp only [Bool.not_eq_false] at this
      simp [this]
  unfold extend
  simp only [hT, h1, if_false, hf, hc, ho, KdTree.insert]
  rfl

/-- C10: `extend` rejects exactly when specified and is atomic.  On a planner whose tree is
`tree`, `extend(fromNode, to)` returns no node with the planner (and so the tree) unchanged
if and only if the rejection condition holds: under the condition that is its result, and
otherwise it returns a node and the tree afterwards is the old tree with exactly one more
node, the returned one, at the candidate position, with parent `fromNode` and in-obstacle
flag false. -/
theorem extend_rejects_iff (E : Env) (P : Path) (tree : KdTree) (fromNode : Node)
    (toPos : Vector2d) (hT : P.tree_ = some tree) :
    ((∃ P2, extend E P fromNode toPos = some (none, P2) ∧ P2.tree_ = some tree)
      ↔ extendRejects E P tree fromNode toPos) ∧
    (extendRejects E P tree fromNode toPos → extend E P fromNode toPos = some (none, P)) ∧
    (¬ extendRejects E P tree fromNode toPos →
      ∃ n tree2, extend E P fromNode toPos = some (some n, { P with tree_ := some tree2 }) ∧
        n = Node.child (extendCandidate E P.stepSize_ (tree.position fromNode) toPos)
          false fromNode ∧
        n.position = extendCandidate E P.stepSize_ (tree.position fromNode) toPos ∧
        n.inObstacle = false ∧ tree2.previous n = some fromNode ∧
        tree2.rootNode = tree.rootNode ∧ tree2.inserted = tree.inserted ++ [n]) := by
  refine ⟨⟨?_, fun h => ⟨P, extend_of_rejects E P tree fromNode toPos hT h, hT⟩⟩,
    extend_of_rejects E P tree fromNode toPos hT, ?_⟩
  · rintro ⟨P2, hP2, _⟩
    by_contra hn
    rw [extend_of_not_rejects E P tree fromNode toPos hT hn] at hP2
    simp at hP2
  · intro hn
    exact ⟨_, _, extend_of_not_rejects E P tree fromNode toPos hT hn,
      rfl, rfl, rfl, rfl, rfl, rfl⟩

/-- Witness of C10: an extension of the root of a one-node tree towards `(0.5, 0)`. -/
theorem extend_rejects_iff_witness :
    ((∃ P2, extend zeroRandEnv searchingPath (Node.root ⟨0, 0⟩ false) ⟨0.5, 0⟩
          = some (none, P2) ∧ P2.tree_ = some (KdTree.construct ⟨0, 0⟩ false))
      ↔ extendRejects zeroRandEnv searchingPath (KdTree.construct ⟨0, 0⟩ false)
          (Node.root ⟨0, 0⟩ false) ⟨0.5, 0⟩) ∧
    (extendRejects zeroRandEnv searchingPath (KdTree.construct ⟨0, 0⟩ false)
        (Node.root ⟨0, 0⟩ false) ⟨0.5, 0⟩ →
      extend zeroRandEnv searchingPath (Node.root ⟨0, 0⟩ false) ⟨0.5, 0⟩
        = some (none, searchingPath)) ∧
    (¬ extendRejects zeroRandEnv searchingPath (KdTree.construct ⟨0, 0⟩ false)
        (Node.root ⟨0, 0⟩ false) ⟨0.5, 0⟩ →
      ∃ n tree2, extend zeroRandEnv searchingPath (Node.root ⟨0, 0⟩ false) ⟨0.5, 0⟩
          = some (some n, { searchingPath with tree_ := some tree2 }) ∧
        n = Node.child (extendCandidate zeroRandEnv searchingPath.stepSize_
          ((KdTree.construct ⟨0, 0⟩ false).position (Node.root ⟨0, 0⟩ false)) ⟨0.5, 0⟩)
          false (Node.root ⟨0, 0⟩ false) ∧
        n.position = extendCandidate zeroRandEnv searchingPath.stepSize_
          ((KdTree.construct ⟨0, 0⟩ false).position (Node.root ⟨0, 0⟩ false)) ⟨0.5, 0⟩ ∧
        n.inObstacle = false ∧ tree2.previous n = some (Node.root ⟨0, 0⟩ false) ∧
        tree2.rootNode = (KdTree.construct ⟨0, 0⟩ false).rootNode ∧
        tree2.inserted = (KdTree.construct ⟨0, 0⟩ false).inserted ++ [n]) :=
  extend_rejects_iff zeroRandEnv searchingPath (KdTree.construct ⟨0, 0⟩ false)
    (Node.root ⟨0, 0⟩ false) ⟨0.5, 0⟩ rfl

/-! ## `cutCorners` on a single corner -/

theorem euclidLength_axis_y (a : ℚ) : euclidLength ⟨0, a⟩ = |a| := by
  unfold euclidLength
  simp only [mul_zero, zero_add]
  exact Rat.sqrt_eq a

/-- What `cutCorners` does to a list of three waypoints: with a positive offset `d` the
result is `left`, `mid + diffRight * d`, `mid + diffLeft * d`, `right`, in this order. -/
theorem cutCornersPoints_three (E : Env) (obstacles_ : List Obstacle) (l m r : TargetPoint) :
    cutCornersPoints E obstacles_ [l, m, r] =
      if cornerOffset E obstacles_ l.Location m.Location r.Location > 0 then
        some [l,
          ⟨m.Location + getNormalized E (r.Location - m.Location)
            * cornerOffset E obstacles_ l.Location m.Location r.Location⟩,
          ⟨m.Location + getNormalized E (l.Location - m.Location)
            * cornerOffset E obstacles_ l.Location m.Location r.Location⟩, r]
      else some [l, m, r] := by
  unfold cutCornersPoints
  rw [cutCornersLoop]
  have h0 : (1 : ℕ) < sizeMinusOne [l, m, r].length := by simp [sizeMinusOne]
  have h1 : 1 + 1 < [l, m, r].length := by simp
  simp only [h0, h1, if_true, dif_pos]
  have e0 : [l, m, r][1 - 1] = l := rfl
  have e1 : [l, m, r][1] = m := rfl
  have e2 : [l, m, r][1 + 1] = r := rfl
  simp only [e0, e1, e2]
  by_cases hpos : cornerOffset E obstacles_ l.Location m.Location r.Location > 0
  · simp only [hpos, if_true]
    rw [cutCornersLoop]
    simp [sizeMinusOne, List.insertIdx]
  · simp only [hpos, if_false]
    rw [cutCornersLoop]
    simp [sizeMinusOne]

theorem vec_add (a b : Vector2d) : a + b = ⟨a.x + b.x, a.y + b.y⟩ := rfl

theorem vec_sub (a b : Vector2d) : a - b = ⟨a.x - b.x, a.y - b.y⟩ := rfl

theorem vec_smul (a : Vector2d) (c : ℚ) : a * c = ⟨a.x * c, a.y * c⟩ := rfl

theorem vec_sdiv (a : Vector2d) (c : ℚ) : a / c = ⟨a.x / c, a.y / c⟩ := rfl

theorem corner_diffLeft :
    getNormalized zeroRandEnv ((⟨0, 0⟩ : Vector2d) - ⟨0.16, 0⟩) = ⟨-1, 0⟩ := by
  have h : euclidLength ⟨-0.16, 0⟩ = 0.16 := by
    rw [euclidLength_axis_x]; norm_num [abs_of_pos]
  have e : ((⟨0, 0⟩ : Vector2d) - ⟨0.16, 0⟩) = ⟨-0.16, 0⟩ := by
    rw [vec_sub]; norm_num
  rw [e]
  simp only [getNormalized, zeroRandEnv, h, vec_sdiv]
  norm_num

theorem corner_diffRight :
    getNormalized zeroRandEnv ((⟨0.16, 0.16⟩ : Vector2d) - ⟨0.16, 0⟩) = ⟨0, 1⟩ := by
  have h : euclidLength ⟨0, 0.16⟩ = 0.16 := by
    rw [euclidLength_axis_y]; norm_num [abs_of_pos]
  have e : ((⟨0.16, 0.16⟩ : Vector2d) - ⟨0.16, 0⟩) = ⟨0, 0.16⟩ := by
    rw [vec_sub]; norm_num
  rw [e]
  simp only [getNormalized, zeroRandEnv, h, vec_sdiv]
  norm_num

theorem corner_step :
    min (zeroRandEnv.getLength ((⟨0, 0⟩ : Vector2d) - ⟨0.16, 0⟩))
      (zeroRandEnv.getLength ((⟨0.16, 0.16⟩ : Vector2d) - ⟨0.16, 0⟩)) / 2 = 0.08 := by
  have h1 : euclidLength ⟨-0.16, 0⟩ = 0.16 := by
    rw [euclidLength_axis_x]; norm_num [abs_of_pos]
  have h2 : euclidLength ⟨0, 0.16⟩ = 0.16 := by
    rw [euclidLength_axis_y]; norm_num [abs_of_pos]
  have e1 : ((⟨0, 0⟩ : Vector2d) - ⟨0.16, 0⟩) = ⟨-0.16, 0⟩ := by
    rw [vec_sub]; norm_num
  have e2 : ((⟨0.16, 0.16⟩ : Vector2d) - ⟨0.16, 0⟩) = ⟨0, 0.16⟩ := by
    rw [vec_sub]; norm_num
  rw [e1, e2]
  simp only [zeroRandEnv, h1, h2]
  norm_num

theorem corner_offset_free :
    cornerOffset zeroRandEnv [] ⟨0, 0⟩ ⟨0.16, 0⟩ ⟨0.16, 0.16⟩ = 0.14 := by
  unfold cornerOffset
  rw [corner_diffLeft, corner_diffRight, corner_step]
  rw [cutSearch]; norm_num [intersectsObstacle]
  rw [cutSearch]; norm_num [intersectsObstacle]
  rw [cutSearch]; norm_num [intersectsObstacle]
  rw [cutSearch]; norm_num [intersectsObstacle]

theorem corner_offset_robot :
    cornerOffset zeroRandEnv [discObstacle ⟨0.08, 0.09⟩ 0.02] ⟨0, 0⟩ ⟨0.16, 0⟩ ⟨0.16, 0.16⟩
      = 0.14 := by
  unfold cornerOffset
  rw [corner_diffLeft, corner_diffRight, corner_step]
  rw [cutSearch]
  norm_num [intersectsObstacle, discObstacle, distSqToSegment, vec_add, vec_smul]
  rw [cutSearch]
  norm_num [intersectsObstacle, discObstacle, distSqToSegment, vec_add, vec_smul]
  rw [cutSearch]
  norm_num [intersectsObstacle, discObstacle, distSqToSegment, vec_add, vec_smul]
  rw [cutSearch]
  norm_num [intersectsObstacle, discObstacle, distSqToSegment, vec_add, vec_smul]

/-- C8, evaluated on the corner `(0, 0), (0.16, 0), (0.16, 0.16)` without obstacles: the
offset is `0.14`, the offset-toward-left point `mid + diffLeft * 0.14` is `(0.02, 0)`, the
offset-toward-right point `mid + diffRight * 0.14` is `(0.16, 0.14)`, and `cutCorners`
leaves the list `left, (0.16, 0.14), (0.02, 0), right`: the offset-toward-right point comes
before the offset-toward-left point, not after it. -/
theorem cutCorners_inserts_in_front :
    cornerOffset zeroRandEnv [] ⟨0, 0⟩ ⟨0.16, 0⟩ ⟨0.16, 0.16⟩ = 0.14 ∧
    (⟨0.16, 0⟩ : Vector2d) + getNormalized zeroRandEnv ((⟨0, 0⟩ : Vector2d) - ⟨0.16, 0⟩)
      * (0.14 : ℚ) = ⟨0.02, 0⟩ ∧
    (⟨0.16, 0⟩ : Vector2d) + getNormalized zeroRandEnv ((⟨0.16, 0.16⟩ : Vector2d) - ⟨0.16, 0⟩)
      * (0.14 : ℚ) = ⟨0.16, 0.14⟩ ∧
    cutCorners zeroRandEnv cornerPath = some { cornerPath with
      CAtargetPoints_ := [⟨⟨0, 0⟩⟩, ⟨⟨0.16, 0.14⟩⟩, ⟨⟨0.02, 0⟩⟩, ⟨⟨0.16, 0.16⟩⟩] } := by
  refine ⟨corner_offset_free, ?_, ?_, ?_⟩
  · rw [corner_diffLeft, vec_smul, vec_add]; norm_num
  · rw [corner_diffRight, vec_smul, vec_add]; norm_num
  · have h : cutCornersPoints zeroRandEnv [] [⟨⟨0, 0⟩⟩, ⟨⟨0.16, 0⟩⟩, ⟨⟨0.16, 0.16⟩⟩]
        = some [⟨⟨0, 0⟩⟩, ⟨⟨0.16, 0.14⟩⟩, ⟨⟨0.02, 0⟩⟩, ⟨⟨0.16, 0.16⟩⟩] := by
      rw [cutCornersPoints_three]
      simp only [corner_offset_free, corner_diffLeft, corner_diffRight, vec_smul, vec_add]
      norm_num
    simp only [cutCorners, cornerPath, emptyFieldPath, h]

/-- C9, evaluated on the corner `(0, 0), (0.16, 0), (0.16, 0.16)` with a robot of radius
0.02 at `(0.08, 0.09)`: both segments of the list are obstacle-free, `cutCorners` leaves
the list `left, (0.16, 0.14), (0.02, 0), right`, and the introduced segment from `left` to
the first new point `(0.16, 0.14)` intersects the robot. -/
theorem cutCorners_introduces_collision :
    segmentsFree robotCornerPath.obstacles_ robotCornerPath.CAtargetPoints_ ∧
    cutCorners zeroRandEnv robotCornerPath = some { robotCornerPath with
      CAtargetPoints_ := [⟨⟨0, 0⟩⟩, ⟨⟨0.16, 0.14⟩⟩, ⟨⟨0.02, 0⟩⟩, ⟨⟨0.16, 0.16⟩⟩] } ∧
    intersectsObstacle robotCornerPath.obstacles_ ⟨⟨0, 0⟩, ⟨0.16, 0.14⟩⟩ = true ∧
    ¬ segmentsFree robotCornerPath.obstacles_
      [⟨⟨0, 0⟩⟩, ⟨⟨0.16, 0.14⟩⟩, ⟨⟨0.02, 0⟩⟩, ⟨⟨0.16, 0.16⟩⟩] := by
  have hhit : intersectsObstacle robotCornerPath.obstacles_ ⟨⟨0, 0⟩, ⟨0.16, 0.14⟩⟩ = true := by
    norm_num [robotCornerPath, intersectsObstacle, discObstacle, distSqToSegment]
  refine ⟨?_, ?_, hhit, ?_⟩
  · norm_num [segmentsFree, robotCornerPath, cornerPath, emptyFieldPath, intersectsObstacle,
      discObstacle, distSqToSegment]
  · have h : cutCornersPoints zeroRandEnv [discObstacle ⟨0.08, 0.09⟩ 0.02]
          [⟨⟨0, 0⟩⟩, ⟨⟨0.16, 0⟩⟩, ⟨⟨0.16, 0.16⟩⟩]
        = some [⟨⟨0, 0⟩⟩, ⟨⟨0.16, 0.14⟩⟩, ⟨⟨0.02, 0⟩⟩, ⟨⟨0.16, 0.16⟩⟩] := by
      rw [cutCornersPoints_three]
      simp only [corner_offset_robot, corner_diffLeft, corner_diffRight, vec_smul, vec_add]
      norm_num
    simp only [cutCorners, robotCornerPath, cornerPath, emptyFieldPath, h]
  · intro hfree
    unfold segmentsFree at hfree
    rw [List.chain'_cons] at hfree
    rw [hhit] at hfree
    exact absurd hfree.1 (by simp)

/-! ## Single steps of the search loop -/

theorem searchLoop_finished (E : Env) (endPos : Position) (resetStepSize : ℚ)
    (nr_iterations iteration : ℤ) (k : ℕ) (P : Path) (h : ¬ iteration < nr_iterations) :
    searchLoop E endPos resetStepSize nr_iterations iteration k P = some P := by
  rw [searchLoop]
  simp only [h, dif_neg, not_false_eq_true]

theorem searchLoop_reached (E : Env) (endPos : Position) (resetStepSize : ℚ)
    (nr_iterations iteration : ℤ) (k : ℕ) (P P2 : Path) (tree : KdTree) (n : Node)
    (h : iteration < nr_iterations) (hT : P.tree_ = some tree)
    (hext : extend E P (tree.nearest E (selectTarget E P.p_dest_ endPos k).1)
      (selectTarget E P.p_dest_ endPos k).1 = some (some n, P2))
    (hd : getDistance E n.position endPos < 0.001) :
    searchLoop E endPos resetStepSize nr_iterations iteration k P
      = some { P2 with stepSize_ := resetStepSize } := by
  rw [searchLoop]
  simp only [h, dif_pos, hT, hext, hd, if_true]

theorem searchLoop_extended (E : Env) (endPos : Position) (resetStepSize : ℚ)
    (nr_iterations iteration : ℤ) (k : ℕ) (P P2 : Path) (tree : KdTree) (n : Node)
    (h : iteration < nr_iterations) (hT : P.tree_ = some tree)
    (hext : extend E P (tree.nearest E (selectTarget E P.p_dest_ endPos k).1)
      (selectTarget E P.p_dest_ endPos k).1 = some (some n, P2))
    (hd : ¬ getDistance E n.position endPos < 0.001) :
    searchLoop E endPos resetStepSize nr_iterations iteration k P
      = searchLoop E endPos resetStepSize nr_iterations (iteration + 1)
          (selectTarget E P.p_dest_ endPos k).2 { P2 with stepSize_ := resetStepSize } := by
  rw [searchLoop]
  simp only [h, dif_pos, hT, hext, hd, if_false]

theorem searchLoop_rejected (E : Env) (endPos : Position) (resetStepSize : ℚ)
    (nr_iterations iteration : ℤ) (k : ℕ) (P P2 : Path) (tree : KdTree)
    (h : iteration < nr_iterations) (hT : P.tree_ = some tree)
    (hext : extend E P (tree.nearest E (selectTarget E P.p_dest_ endPos k).1)
      (selectTarget E P.p_dest_ endPos k).1 = some (none, P2)) :
    searchLoop E endPos resetStepSize nr_iterations iteration k P
      = searchLoop E endPos resetStepSize nr_iterations (iteration + 1)
          (selectTarget E P.p_dest_ endPos k).2
          { P2 with stepSize_ := P2.stepSize_ + P2.stepSize_ * 0.05 } := by
  rw [searchLoop]
  simp only [h, dif_pos, hT, hext]

theorem selectTarget_zeroRand (p_dest_ : ℚ) (endPos : Position) (k : ℕ) (h : 0 < p_dest_) :
    selectTarget zeroRandEnv p_dest_ endPos k = (endPos, k + 1) := by
  simp [selectTarget, zeroRandEnv, h]

theorem extendCandidate_near (E : Env) (stepSize_ : ℚ) (fromPos toPos : Vector2d)
    (h : E.getLength (toPos - fromPos) ≤ stepSize_) :
    extendCandidate E stepSize_ fromPos toPos = fromPos + (toPos - fromPos) := by
  simp [extendCandidate, not_lt.mpr h]

theorem extendCandidate_far (E : Env) (stepSize_ : ℚ) (fromPos toPos : Vector2d)
    (h : E.getLength (toPos - fromPos) > stepSize_) :
    extendCandidate E stepSize_ fromPos toPos
      = fromPos + (toPos - fromPos) * stepSize_ / E.getLength (toPos - fromPos) := by
  simp [extendCandidate, h]

/-! ## A tree edge through an obstacle -/

theorem simplifyPoints_short (obstacles_ : List Obstacle) (pts : List TargetPoint)
    (h : pts.length < 3) : simplifyPoints obstacles_ pts = some pts := by
  obtain ⟨out, hout, hsc⟩ := simplifyOuter_shortcuts obstacles_ _ 0 pts rfl
  rcases hsc.short with h3 | h3
  · omega
  · rw [simplifyPoints, hout, h3]

theorem cutCornersPoints_two (E : Env) (obstacles_ : List Obstacle) (a b : TargetPoint) :
    cutCornersPoints E obstacles_ [a, b] = some [a, b] := by
  unfold cutCornersPoints
  rw [cutCornersLoop]
  simp [sizeMinusOne]

theorem blocked_extend :
    extend zeroRandEnv { blockedPath with tree_ := some (KdTree.construct ⟨0, 0⟩ false) }
      (Node.root ⟨0, 0⟩ false) ⟨0.1, 0⟩
    = some (some (Node.child ⟨0.1, 0⟩ false (Node.root ⟨0, 0⟩ false)), blockedPathSearched) := by
  have hsub : ((⟨0.1, 0⟩ : Vector2d) - ⟨0, 0⟩) = ⟨0.1, 0⟩ := by
    rw [vec_sub]; norm_num
  have hlen : zeroRandEnv.getLength ((⟨0.1, 0⟩ : Vector2d) - ⟨0, 0⟩) = 0.1 := by
    rw [hsub]
    show euclidLength _ = _
    rw [euclidLength_axis_x]; norm_num [abs_of_pos]
  have hc : extendCandidate zeroRandEnv (0.1 : ℚ) ⟨0, 0⟩ ⟨0.1, 0⟩ = ⟨0.1, 0⟩ := by
    rw [extendCandidate_near _ _ _ _ (by rw [hlen]), hsub, vec_add]; norm_num
  have hnot : ¬ extendRejects zeroRandEnv
      { blockedPath with tree_ := some (KdTree.construct ⟨0, 0⟩ false) }
      (KdTree.construct ⟨0, 0⟩ false) (Node.root ⟨0, 0⟩ false) ⟨0.1, 0⟩ := by
    unfold extendRejects
    simp only [KdTree.position, Node.position]
    rw [hlen]
    have hc2 : extendCandidate zeroRandEnv blockedPath.stepSize_ ⟨0, 0⟩ ⟨0.1, 0⟩
        = ⟨0.1, 0⟩ := hc
    simp only [hc2]
    norm_num [blockedPath, emptyFieldPath, rectField, discObstacle]
  rw [extend_of_not_rejects _ _ _ _ _ rfl hnot]
  have hc3 : extendCandidate zeroRandEnv
      ({ blockedPath with tree_ := some (KdTree.construct ⟨0, 0⟩ false) } : Path).stepSize_
      ((KdTree.construct ⟨0, 0⟩ false).position (Node.root ⟨0, 0⟩ false)) ⟨0.1, 0⟩
        = ⟨0.1, 0⟩ := hc
  rw [hc3]
  rfl

theorem blocked_searchLoop :
    searchLoop zeroRandEnv ⟨0.1, 0⟩ 0.1 100 1 0
      { blockedPath with tree_ := some (KdTree.construct ⟨0, 0⟩ false) }
      = some blockedPathSearched := by
  have hsel : selectTarget zeroRandEnv
      ({ blockedPath with tree_ := some (KdTree.construct ⟨0, 0⟩ false) } : Path).p_dest_
      ⟨0.1, 0⟩ 0 = (⟨0.1, 0⟩, 0 + 1) :=
    selectTarget_zeroRand _ _ _ (by norm_num [blockedPath, emptyFieldPath])
  have hd : getDistance zeroRandEnv (Node.child ⟨0.1, 0⟩ false (Node.root ⟨0, 0⟩ false)).position
      ⟨0.1, 0⟩ < 0.001 := by
    have e : ((⟨0.1, 0⟩ : Vector2d) - ⟨0.1, 0⟩) = ⟨0, 0⟩ := by rw [vec_sub]; norm_num
    simp only [getDistance, Node.position, e]
    show euclidLength _ < _
    rw [euclidLength_axis_x]; norm_num
  rw [searchLoop_reached zeroRandEnv ⟨0.1, 0⟩ 0.1 100 1 0 _ blockedPathSearched
    (KdTree.construct ⟨0, 0⟩ false) (Node.child ⟨0.1, 0⟩ false (Node.root ⟨0, 0⟩ false))
    (by norm_num) rfl (by rw [hsel]; exact blocked_extend) hd]
  rfl

theorem simplify_short (P : Path) (h : P.CAtargetPoints_.length < 3) :
    simplify P = some P := by
  simp only [simplify, simplifyPoints_short _ _ h]

theorem cutCorners_two (E : Env) (P : Path) (a b : TargetPoint)
    (h : P.CAtargetPoints_ = [a, b]) : cutCorners E P = some P := by
  simp only [cutCorners, h, cutCornersPoints_two]
  rw [← h]

theorem postProcess_two (E : Env) (a b : TargetPoint) :
    ∀ (n : ℕ) (P : Path), P.CAtargetPoints_ = [a, b] → postProcess E n P = some P := by
  intro n
  induction n with
  | zero => intro P _; rfl
  | succ n ih =>
    intro P h
    simp only [postProcess, simplify_short P (by rw [h]; simp), cutCorners_two E P a b h]
    exact ih P h

/-- C2, evaluated for a planner at `(0, 0)` with a robot of radius 0.03 at `(0.05, 0)`,
step size 0.1 and the goal `(0.1, 0)`: the goal is valid, the direct segment is blocked,
the first extension of the root reaches the goal in one step, and `compute` leaves the
waypoints `(0, 0), (0.1, 0)`, whose connecting segment passes through the robot. -/
theorem compute_edge_through_obstacle :
    ∃ P2, compute zeroRandEnv blockedPath ⟨⟨0.1, 0⟩⟩ = some P2 ∧
      P2.CAtargetPoints_ = [⟨⟨0, 0⟩⟩, ⟨⟨0.1, 0⟩⟩] ∧
      P2.obstacles_ = blockedPath.obstacles_ ∧
      intersectsObstacle blockedPath.obstacles_ ⟨⟨0, 0⟩, ⟨0.1, 0⟩⟩ = true ∧
      ¬ segmentsFree P2.obstacles_ P2.CAtargetPoints_ := by
  have hhit : intersectsObstacle blockedPath.obstacles_ ⟨⟨0, 0⟩, ⟨0.1, 0⟩⟩ = true := by
    norm_num [blockedPath, intersectsObstacle, discObstacle, distSqToSegment]
  have hend : correctedEnd { blockedPath with CAtargetPoints_ := [] } ⟨⟨0.1, 0⟩⟩
      = some ⟨0.1, 0⟩ := by
    refine correctedEnd_of_valid _ ⟨⟨0.1, 0⟩⟩ ?_ ?_ ?_
    · intro o ho
      simp only [blockedPath, List.mem_singleton] at ho
      subst ho
      norm_num [discObstacle]
    · intro c hc; simp [blockedPath, emptyFieldPath] at hc
    · intro _; norm_num [blockedPath, emptyFieldPath, rectField]
  have hnear : KdTree.nearest zeroRandEnv
      ⟨Node.root ⟨0, 0⟩ false, [Node.child ⟨0.1, 0⟩ false (Node.root ⟨0, 0⟩ false)]⟩ ⟨0.1, 0⟩
      = Node.child ⟨0.1, 0⟩ false (Node.root ⟨0, 0⟩ false) := by
    have e1 : ((⟨0.1, 0⟩ : Vector2d) - ⟨0.1, 0⟩) = ⟨0, 0⟩ := by rw [vec_sub]; norm_num
    have e2 : ((⟨0, 0⟩ : Vector2d) - ⟨0.1, 0⟩) = ⟨-0.1, 0⟩ := by rw [vec_sub]; norm_num
    have l1 : euclidLength ⟨0, 0⟩ = 0 := by rw [euclidLength_axis_x]; norm_num
    have l2 : euclidLength ⟨-0.1, 0⟩ = 0.1 := by
      rw [euclidLength_axis_x]; norm_num [abs_of_pos]
    simp only [KdTree.nearest, KdTree.nearestAux, getDistance, Node.position, e1, e2,
      zeroRandEnv, l1, l2]
    norm_num
  have hsearch : computeSearch zeroRandEnv { blockedPath with CAtargetPoints_ := [] }
      ⟨0.1, 0⟩ = some { blockedPathSearched with
        CAtargetPoints_ := [⟨⟨0, 0⟩⟩, ⟨⟨0.1, 0⟩⟩] } := by
    unfold computeSearch
    have h1 : searchLoop zeroRandEnv ⟨0.1, 0⟩
        ({ blockedPath with CAtargetPoints_ := [] } : Path).stepSize_
        ({ blockedPath with CAtargetPoints_ := [] } : Path).nr_iterations_ 1 0
        { ({ blockedPath with CAtargetPoints_ := [] } : Path) with
          tree_ := some (KdTree.construct
            ({ blockedPath with CAtargetPoints_ := [] } : Path).position_ false) }
        = some blockedPathSearched := blocked_searchLoop
    rw [h1]
    simp only [blockedPathSearched, hnear, extractPath]
    have hempty : blockedPath.CAtargetPoints_ = [] := rfl
    simp only [hempty]
    rw [postProcess_two zeroRandEnv ⟨⟨0, 0⟩⟩ ⟨⟨0.1, 0⟩⟩ _ _ rfl]
    simp only []
    rw [simplify_short _ (by simp)]
  refine ⟨{ blockedPathSearched with CAtargetPoints_ := [⟨⟨0, 0⟩⟩, ⟨⟨0.1, 0⟩⟩] },
    ?_, rfl, rfl, hhit, ?_⟩
  · have hhit3 : intersectsObstacle blockedPath.obstacles_
        ⟨blockedPath.position_, ⟨0.1, 0⟩⟩ = true := hhit
    simp only [compute, hend, hhit3, Bool.not_true]
    exact hsearch
  · intro hfree
    unfold segmentsFree at hfree
    rw [List.chain'_cons] at hfree
    have hhit2 := hhit
    simp only [blockedPath] at hhit2
    simp only [blockedPathSearched, blockedPath] at hfree
    rw [hhit2] at hfree
    exact absurd hfree.1 (by simp)

/-! ## Which waypoints are checked -/

theorem nearestAux_mem (E : Env) (point : Vector2d) :
    ∀ (rest : List Node) (best : Node),
      KdTree.nearestAux E point best rest = best ∨ KdTree.nearestAux E point best rest ∈ rest := by
  intro rest
  induction rest with
  | nil => intro best; exact Or.inl rfl
  | cons n rest ih =>
    intro best
    simp only [KdTree.nearestAux]
    split
    · rcases ih n with h | h
      · right; rw [h]; exact List.mem_cons_self _ _
      · right; exact List.mem_cons_of_mem _ h
    · rcases ih best with h | h
      · left; exact h
      · right; exact List.mem_cons_of_mem _ h

theorem SearchInv.nearest_checked {P Q : Path} {tree : KdTree} (h : SearchInv P Q tree)
    (E : Env) (point : Vector2d) : (tree.nearest E point).checked P := by
  rcases nearestAux_mem E point tree.inserted tree.rootNode with h1 | h1
  · unfold KdTree.nearest
    rw [h1, h.root_eq]
    rfl
  · exact (h.nodes _ h1).2

theorem SearchInv.stepSize {P Q : Path} {tree : KdTree} (h : SearchInv P Q tree) (s : ℚ) :
    SearchInv P { Q with stepSize_ := s } tree :=
  ⟨h.position, h.obstacles, h.corners, h.field, h.useGameField, h.p_dest, h.nr_iterations,
    h.nr_pp_steps, h.points, h.tree_eq, h.root_eq, h.nodes⟩

theorem SearchInv.extend_accept {P Q : Path} {tree : KdTree} (h : SearchInv P Q tree)
    (E : Env) (fromNode : Node) (toPos : Vector2d) (hfrom : fromNode.checked P)
    (hnot : ¬ extendRejects E Q tree fromNode toPos) :
    SearchInv P { Q with tree_ := some ⟨tree.rootNode, tree.inserted ++ [Node.child
        (extendCandidate E Q.stepSize_ (tree.position fromNode) toPos) false fromNode]⟩ }
      ⟨tree.rootNode, tree.inserted ++ [Node.child
        (extendCandidate E Q.stepSize_ (tree.position fromNode) toPos) false fromNode]⟩ := by
  refine ⟨h.position, h.obstacles, h.corners, h.field, h.useGameField, h.p_dest,
    h.nr_iterations, h.nr_pp_steps, h.points, rfl, h.root_eq, ?_⟩
  intro n hn
  rcases List.mem_append.mp hn with hn | hn
  · exact h.nodes n hn
  · rw [List.mem_singleton] at hn
    subst hn
    unfold extendRejects at hnot
    push_neg at hnot
    obtain ⟨_, h2, h3, h4⟩ := hnot
    suffices hv : validPoint P (extendCandidate E Q.stepSize_ (tree.position fromNode) toPos)
      from ⟨hv, hv, hfrom⟩
    refine ⟨?_, ?_, ?_⟩
    · intro o ho
      rw [← h.obstacles] at ho
      cases hv : o.isInside (extendCandidate E Q.stepSize_ (tree.position fromNode) toPos)
      · rfl
      · exact absurd hv (h4 o ho)
    · intro c hc
      rw [← h.corners] at hc
      cases hv : c.isInside (extendCandidate E Q.stepSize_ (tree.position fromNode) toPos)
      · rfl
      · exact absurd hv (h3 c hc)
    · intro hu
      rw [← h.useGameField] at hu
      rw [← h.field]
      cases hv : Q.field_.isInside
        (extendCandidate E Q.stepSize_ (tree.position fromNode) toPos)
      · exact absurd hv (h2 hu)
      · rfl

theorem extractPath_checked (P : Path) :
    ∀ (n : Node) (acc : List TargetPoint), n.checked P →
      ∃ rest, extractPath n acc = ⟨P.position_⟩ :: (rest ++ acc) ∧
        ∀ w ∈ rest, validPoint P w.Location := by
  intro n
  induction n with
  | root p f =>
    intro acc h
    refine ⟨[], ?_, by simp⟩
    have hp : p = P.position_ := h
    simp [extractPath, hp]
  | child p f parent ih =>
    intro acc h
    obtain ⟨hv, hpar⟩ : validPoint P p ∧ parent.checked P := h
    obtain ⟨rest, hrest, hvalid⟩ := ih (⟨p⟩ :: acc) hpar
    refine ⟨rest ++ [⟨p⟩], ?_, ?_⟩
    · simp [extractPath, hrest]
    · intro w hw
      rcases List.mem_append.mp hw with hw | hw
      · exact hvalid w hw
      · rw [List.mem_singleton] at hw
        subst hw
        exact hv

theorem getLength_horizontal (a b c : ℚ) :
    zeroRandEnv.getLength ((⟨a, c⟩ : Vector2d) - ⟨b, c⟩) = |a - b| := by
  rw [vec_sub]
  simp only [sub_self]
  exact euclidLength_axis_x _

theorem simplifyOuter_step (obstacles_ : List Obstacle) (s : ℕ) (pts pts2 : List TargetPoint)
    (hs : s < pts.length)
    (h : simplifyInner obstacles_ pts s (pts.length - 1) = some pts2) :
    simplifyOuter obstacles_ s pts = simplifyOuter obstacles_ (s + 1) pts2 := by
  rw [simplifyOuter]
  simp only [hs, dif_pos]
  split
  · rename_i pts3 h3
    rw [h] at h3
    cases h3
    rfl
  · rename_i h3
    rw [h] at h3
    cases h3

theorem simplifyOuter_done (obstacles_ : List Obstacle) (s : ℕ) (pts : List TargetPoint)
    (hs : ¬ s < pts.length) : simplifyOuter obstacles_ s pts = some pts := by
  rw [simplifyOuter]
  simp only [hs, dif_neg, not_false_eq_true]

theorem vec_add_sub_cancel (a b : Vector2d) : a + (b - a) = b := by
  rw [vec_sub, vec_add]
  simp

theorem vec_add_sub_self (a d : Vector2d) : a + d - a = d := by
  rw [vec_add, vec_sub]
  simp

theorem vec_smul_sdiv (d : Vector2d) (s l : ℚ) : d * s / l = d * (s / l) := by
  rw [vec_smul, vec_sdiv, vec_smul]
  simp only [mul_div_assoc]

theorem vec_smul_zero (d : Vector2d) : d * (0 : ℚ) = ⟨0, 0⟩ := by
  rw [vec_smul]
  simp

/-- C11: the step of `extend`, for a length function that is zero on the zero vector and
positively homogeneous on the displacement from `fromPos` to the target, as the Euclidean
length is.  With the target at distance `l > 0` and `stepSize_ > 0`, the candidate is the
target itself when `l <= stepSize_`, and otherwise the point `fromPos + d * (stepSize_ / l)`
of the ray towards the target, with `0 < stepSize_ / l < 1`, at distance exactly
`stepSize_`; in both cases it is at distance `min(l, stepSize_) > 0` from `fromPos` and
differs from it, and so does every node that `extend` returns from its parent. -/
theorem extendCandidate_step_length (E : Env) (stepSize_ : ℚ) (fromPos toPos : Vector2d)
    (hl : 0 < E.getLength (toPos - fromPos)) (hs : 0 < stepSize_)
    (hzero : E.getLength ⟨0, 0⟩ = 0)
    (hhom : ∀ c : ℚ, 0 ≤ c →
      E.getLength ((toPos - fromPos) * c) = E.getLength (toPos - fromPos) * c) :
    (E.getLength (toPos - fromPos) ≤ stepSize_ →
      extendCandidate E stepSize_ fromPos toPos = toPos) ∧
    (stepSize_ < E.getLength (toPos - fromPos) →
      extendCandidate E stepSize_ fromPos toPos
        = fromPos + (toPos - fromPos) * (stepSize_ / E.getLength (toPos - fromPos)) ∧
      0 < stepSize_ / E.getLength (toPos - fromPos) ∧
      stepSize_ / E.getLength (toPos - fromPos) < 1 ∧
      getDistance E (extendCandidate E stepSize_ fromPos toPos) fromPos = stepSize_) ∧
    getDistance E (extendCandidate E stepSize_ fromPos toPos) fromPos
      = min (E.getLength (toPos - fromPos)) stepSize_ ∧
    0 < min (E.getLength (toPos - fromPos)) stepSize_ ∧
    extendCandidate E stepSize_ fromPos toPos ≠ fromPos ∧
    ∀ (P P2 : Path) (tree : KdTree) (fromNode n : Node),
      P.tree_ = some tree → P.stepSize_ = stepSize_ → tree.position fromNode = fromPos →
      extend E P fromNode toPos = some (some n, P2) →
      tree.previous n = some fromNode ∧
      getDistance E n.position (tree.position fromNode)
        = min (E.getLength (toPos - fromPos)) stepSize_ ∧
      n.position ≠ tree.position fromNode := by
  have hnear : E.getLength (toPos - fromPos) ≤ stepSize_ →
      extendCandidate E stepSize_ fromPos toPos = toPos := by
    intro h
    rw [extendCandidate_near E stepSize_ fromPos toPos h, vec_add_sub_cancel]
  have hfar : stepSize_ < E.getLength (toPos - fromPos) →
      extendCandidate E stepSize_ fromPos toPos
        = fromPos + (toPos - fromPos) * (stepSize_ / E.getLength (toPos - fromPos)) := by
    intro h
    rw [extendCandidate_far E stepSize_ fromPos toPos h, vec_smul_sdiv]
  have hratio : 0 < stepSize_ / E.getLength (toPos - fromPos) := div_pos hs hl
  have hdist : getDistance E (extendCandidate E stepSize_ fromPos toPos) fromPos
      = min (E.getLength (toPos - fromPos)) stepSize_ := by
    unfold getDistance
    rcases le_or_lt (E.getLength (toPos - fromPos)) stepSize_ with h | h
    · rw [extendCandidate_near E stepSize_ fromPos toPos h, vec_add_sub_self, min_eq_left h]
    · rw [hfar h, vec_add_sub_self, hhom _ hratio.le, min_eq_right h.le]
      field_simp
  have hmin : 0 < min (E.getLength (toPos - fromPos)) stepSize_ := lt_min hl hs
  have hne : extendCandidate E stepSize_ fromPos toPos ≠ fromPos := by
    intro h
    have h2 := hdist
    rw [h] at h2
    unfold getDistance at h2
    have h3 : fromPos - fromPos = (⟨0, 0⟩ : Vector2d) := by rw [vec_sub]; simp
    rw [h3, hzero] at h2
    rw [← h2] at hmin
    exact lt_irrefl _ hmin
  refine ⟨hnear, ?_, hdist, hmin, hne, ?_⟩
  · intro h
    refine ⟨hfar h, hratio, (div_lt_one hl).mpr h, ?_⟩
    rw [hdist, min_eq_right h.le]
  · intro P P2 tree fromNode n hT hS hF hext
    by_cases hrej : extendRejects E P tree fromNode toPos
    · rw [extend_of_rejects E P tree fromNode toPos hT hrej] at hext
      simp at hext
    · rw [extend_of_not_rejects E P tree fromNode toPos hT hrej] at hext
      simp only [Option.some.injEq, Prod.mk.injEq] at hext
      obtain ⟨hn, _⟩ := hext
      subst hn
      rw [hS, hF]
      exact ⟨rfl, hdist, hne⟩

/-- Witness of C11: a step of size 0.1 from `(0, 0)` towards `(0.5, 0)`. -/
theorem extendCandidate_step_length_witness :
    (zeroRandEnv.getLength ((⟨0.5, 0⟩ : Vector2d) - ⟨0, 0⟩) ≤ 0.1 →
      extendCandidate zeroRandEnv 0.1 ⟨0, 0⟩ ⟨0.5, 0⟩ = ⟨0.5, 0⟩) ∧
    ((0.1 : ℚ) < zeroRandEnv.getLength ((⟨0.5, 0⟩ : Vector2d) - ⟨0, 0⟩) →
      extendCandidate zeroRandEnv 0.1 ⟨0, 0⟩ ⟨0.5, 0⟩
        = (⟨0, 0⟩ : Vector2d) + ((⟨0.5, 0⟩ : Vector2d) - ⟨0, 0⟩)
          * ((0.1 : ℚ) / zeroRandEnv.getLength ((⟨0.5, 0⟩ : Vector2d) - ⟨0, 0⟩)) ∧
      0 < (0.1 : ℚ) / zeroRandEnv.getLength ((⟨0.5, 0⟩ : Vector2d) - ⟨0, 0⟩) ∧
      (0.1 : ℚ) / zeroRandEnv.getLength ((⟨0.5, 0⟩ : Vector2d) - ⟨0, 0⟩) < 1 ∧
      getDistance zeroRandEnv (extendCandidate zeroRandEnv 0.1 ⟨0, 0⟩ ⟨0.5, 0⟩) ⟨0, 0⟩ = 0.1) ∧
    getDistance zeroRandEnv (extendCandidate zeroRandEnv 0.1 ⟨0, 0⟩ ⟨0.5, 0⟩) ⟨0, 0⟩
      = min (zeroRandEnv.getLength ((⟨0.5, 0⟩ : Vector2d) - ⟨0, 0⟩)) 0.1 ∧
    0 < min (zeroRandEnv.getLength ((⟨0.5, 0⟩ : Vector2d) - ⟨0, 0⟩)) 0.1 ∧
    extendCandidate zeroRandEnv 0.1 ⟨0, 0⟩ ⟨0.5, 0⟩ ≠ ⟨0, 0⟩ ∧
    ∀ (P P2 : Path) (tree : KdTree) (fromNode n : Node),
      P.tree_ = some tree → P.stepSize_ = 0.1 → tree.position fromNode = ⟨0, 0⟩ →
      extend zeroRandEnv P fromNode ⟨0.5, 0⟩ = some (some n, P2) →
      tree.previous n = some fromNode ∧
      getDistance zeroRandEnv n.position (tree.position fromNode)
        = min (zeroRandEnv.getLength ((⟨0.5, 0⟩ : Vector2d) - ⟨0, 0⟩)) 0.1 ∧
      n.position ≠ tree.position fromNode :=
  extendCandidate_step_length zeroRandEnv 0.1 ⟨0, 0⟩ ⟨0.5, 0⟩
    (by rw [getLength_horizontal]; norm_num [abs_of_pos])
    (by norm_num)
    (by show euclidLength _ = _; rw [euclidLength_axis_x]; norm_num)
    (by
      intro c hc
      rw [getLength_horizontal, vec_sub, vec_smul]
      show euclidLength _ = _
      simp only [sub_zero, zero_mul]
      rw [euclidLength_axis_x, abs_of_nonneg (by positivity), abs_of_pos (by norm_num)])

/-- C18: `randomState` stays in the nominal field rectangle.  When the two draws
`rand() / RAND_MAX` are `r1` and `r2` in `[0, 1]`, the point returned has
`-1.425 <= x <= 1.385` and `-0.880 <= y <= 0.882`, and the bounds are attained: `x` is
`-1.425` at `r1 = 0` and `1.385` at `r1 = 1`, `y` is `-0.880` at `r2 = 0` and `0.882` at
`r2 = 1`. -/
theorem randomState_in_rectangle (E : Env) (k : ℕ) (r1 r2 : ℚ)
    (hr1 : (E.rand k : ℚ) / (E.RAND_MAX : ℚ) = r1)
    (hr2 : (E.rand (k + 1) : ℚ) / (E.RAND_MAX : ℚ) = r2)
    (h1 : 0 ≤ r1 ∧ r1 ≤ 1) (h2 : 0 ≤ r2 ∧ r2 ≤ 1) :
    -1.425 ≤ (randomState E k).x ∧ (randomState E k).x ≤ 1.385 ∧
    -0.880 ≤ (randomState E k).y ∧ (randomState E k).y ≤ 0.882 ∧
    (r1 = 0 → (randomState E k).x = -1.425) ∧ (r1 = 1 → (randomState E k).x = 1.385) ∧
    (r2 = 0 → (randomState E k).y = -0.880) ∧ (r2 = 1 → (randomState E k).y = 0.882) := by
  simp only [randomState, hr1, hr2]
  obtain ⟨h1a, h1b⟩ := h1
  obtain ⟨h2a, h2b⟩ := h2
  refine ⟨?_, ?_, ?_, ?_, ?_, ?_, ?_, ?_⟩
  · norm_num; linarith
  · norm_num; linarith
  · norm_num; linarith
  · norm_num; linarith
  · intro h; rw [h]; norm_num
  · intro h; rw [h]; norm_num
  · intro h; rw [h]; norm_num
  · intro h; rw [h]; norm_num

/-- Witness of C18: the draws `r1 = 0` and `r2 = 1`. -/
theorem randomState_in_rectangle_witness :
    -1.425 ≤ (randomState alternatingRandEnv 0).x ∧
    (randomState alternatingRandEnv 0).x ≤ 1.385 ∧
    -0.880 ≤ (randomState alternatingRandEnv 0).y ∧
    (randomState alternatingRandEnv 0).y ≤ 0.882 ∧
    ((0 : ℚ) = 0 → (randomState alternatingRandEnv 0).x = -1.425) ∧
    ((0 : ℚ) = 1 → (randomState alternatingRandEnv 0).x = 1.385) ∧
    ((1 : ℚ) = 0 → (randomState alternatingRandEnv 0).y = -0.880) ∧
    ((1 : ℚ) = 1 → (randomState alternatingRandEnv 0).y = 0.882) :=
  randomState_in_rectangle alternatingRandEnv 0 0 1
    (by norm_num [alternatingRandEnv]) (by norm_num [alternatingRandEnv])
    (by norm_num) (by norm_num)

/-! ## The offset of `cutCorners` -/

theorem cutSearch_spec (obstacles_ : List Obstacle) (mid diffLeft diffRight : Vector2d)
    (m : ℚ) :
    ∀ (n : ℕ) (step dist lastGood : ℚ), ⌈100 * step⌉₊ = n →
      step ≤ dist → dist + step ≤ m →
      (lastGood = 0 ∨ (0 < lastGood ∧ lastGood < m ∧
        chamferFree obstacles_ mid diffLeft diffRight lastGood)) →
      (cutSearch obstacles_ mid diffLeft diffRight step dist lastGood = 0 ∨
        (0 < cutSearch obstacles_ mid diffLeft diffRight step dist lastGood ∧
          cutSearch obstacles_ mid diffLeft diffRight step dist lastGood < m ∧
          chamferFree obstacles_ mid diffLeft diffRight
            (cutSearch obstacles_ mid diffLeft diffRight step dist lastGood))) := by
  intro n
  induction n using Nat.strong_induction_on with
  | _ n ih =>
    intro step dist lastGood hn h1 h2 hlast
    rw [cutSearch]
    by_cases hstep : step > 0.01
    · have hpos : (0 : ℚ) < step := by
        have : (0.01 : ℚ) < step := hstep
        norm_num at this
        linarith
      have hdec : ⌈100 * (step / 2)⌉₊ < n := by
        rw [← hn, Nat.lt_ceil]
        have h3 : (0.01 : ℚ) < step := hstep
        norm_num at h3
        rcases le_or_lt 2 (100 * step) with h4 | h4
        · have h5 := Nat.ceil_lt_add_one (show (0 : ℚ) ≤ 100 * (step / 2) by linarith)
          linarith
        · have h5 : ⌈100 * (step / 2)⌉₊ ≤ 1 := by
            rw [Nat.ceil_le]; push_cast; linarith
          have h6 : ((⌈100 * (step / 2)⌉₊ : ℕ) : ℚ) ≤ 1 := by exact_mod_cast h5
          linarith
      simp only [hstep, dif_pos]
      cases hfree : intersectsObstacle obstacles_
          ⟨mid + diffLeft * dist, mid + diffRight * dist⟩ with
      | false =>
        simp only [Bool.not_false, if_true]
        exact ih _ hdec (step / 2) (dist + step / 2) dist rfl (by linarith) (by linarith)
          (Or.inr ⟨by linarith, by linarith, hfree⟩)
      | true =>
        simp only [Bool.not_true, Bool.false_eq_true, if_false]
        exact ih _ hdec (step / 2) (dist - step / 2) lastGood rfl (by linarith) (by linarith)
          hlast
    · simp only [hstep, dif_neg, not_false_eq_true]
      exact hlast

theorem cutSearch_small (obstacles_ : List Obstacle) (mid diffLeft diffRight : Vector2d)
    (step dist lastGood : ℚ) (h : step ≤ 0.01) :
    cutSearch obstacles_ mid diffLeft diffRight step dist lastGood = lastGood := by
  rw [cutSearch]
  simp only [not_lt.mpr h, gt_iff_lt, dif_neg, not_false_eq_true]

theorem cornerOffset_spec (E : Env) (obstacles_ : List Obstacle) (left mid right : Vector2d) :
    cornerOffset E obstacles_ left mid right = 0 ∨
      (0 < cornerOffset E obstacles_ left mid right ∧
        cornerOffset E obstacles_ left mid right
          < min (E.getLength (left - mid)) (E.getLength (right - mid)) ∧
        chamferFree obstacles_ mid (getNormalized E (left - mid))
          (getNormalized E (right - mid)) (cornerOffset E obstacles_ left mid right)) := by
  unfold cornerOffset
  exact cutSearch_spec obstacles_ mid _ _ _ _ _ _ 0 rfl le_rfl (by linarith) (Or.inl rfl)

/-- C17, amended: the offset `lastGood` of `cutCorners` for an interior waypoint with
neighbour distances `a` and `b`.  It is never negative; it is below `min(a, b)` whenever
`min(a, b)` is positive; it is `0` whenever `min(a, b) <= 0.02`; and whenever it is
positive, it is below `min(a, b)` and the chamfer from `mid + diffLeft * lastGood` to
`mid + diffRight * lastGood` intersects no obstacle. -/
theorem cornerOffset_bound (E : Env) (obstacles_ : List Obstacle) (left mid right : Vector2d) :
    0 ≤ cornerOffset E obstacles_ left mid right ∧
    (0 < min (E.getLength (left - mid)) (E.getLength (right - mid)) →
      cornerOffset E obstacles_ left mid right
        < min (E.getLength (left - mid)) (E.getLength (right - mid))) ∧
    (min (E.getLength (left - mid)) (E.getLength (right - mid)) ≤ 0.02 →
      cornerOffset E obstacles_ left mid right = 0) ∧
    (0 < cornerOffset E obstacles_ left mid right →
      cornerOffset E obstacles_ left mid right
        < min (E.getLength (left - mid)) (E.getLength (right - mid)) ∧
      intersectsObstacle obstacles_
        ⟨mid + getNormalized E (left - mid) * cornerOffset E obstacles_ left mid right,
         mid + getNormalized E (right - mid) * cornerOffset E obstacles_ left mid right⟩
        = false) := by
  have h := cornerOffset_spec E obstacles_ left mid right
  refine ⟨?_, ?_, ?_, ?_⟩
  · rcases h with h | h
    · rw [h]
    · exact h.1.le
  · intro hm
    rcases h with h | h
    · rw [h]; exact hm
    · exact h.2.1
  · intro hm
    unfold cornerOffset
    apply cutSearch_small
    have : min (E.getLength (left - mid)) (E.getLength (right - mid)) ≤ 2 / 100 := by
      norm_num at hm ⊢
      exact hm
    norm_num
    linarith
  · intro hpos
    rcases h with h | h
    · rw [h] at hpos; exact absurd hpos (lt_irrefl _)
    · exact ⟨h.2.1, h.2.2⟩

/-- Counterexample to C17 as stated: the waypoint `(0, 0)` between the neighbours `(0, 0)`
and `(1, 0)` has neighbour distances `a = 0` and `b = 1`; the offset is `0`, which is not
below `min(a, b) = 0`. -/
theorem cornerOffset_not_below_min :
    zeroRandEnv.getLength ((⟨0, 0⟩ : Vector2d) - ⟨0, 0⟩) = 0 ∧
    zeroRandEnv.getLength ((⟨1, 0⟩ : Vector2d) - ⟨0, 0⟩) = 1 ∧
    cornerOffset zeroRandEnv [] ⟨0, 0⟩ ⟨0, 0⟩ ⟨1, 0⟩ = 0 ∧
    ¬ (0 ≤ cornerOffset zeroRandEnv [] ⟨0, 0⟩ ⟨0, 0⟩ ⟨1, 0⟩ ∧
      cornerOffset zeroRandEnv [] ⟨0, 0⟩ ⟨0, 0⟩ ⟨1, 0⟩
        < min (zeroRandEnv.getLength ((⟨0, 0⟩ : Vector2d) - ⟨0, 0⟩))
            (zeroRandEnv.getLength ((⟨1, 0⟩ : Vector2d) - ⟨0, 0⟩))) := by
  have ha : zeroRandEnv.getLength ((⟨0, 0⟩ : Vector2d) - ⟨0, 0⟩) = 0 := by
    rw [getLength_horizontal]; norm_num
  have hb : zeroRandEnv.getLength ((⟨1, 0⟩ : Vector2d) - ⟨0, 0⟩) = 1 := by
    rw [getLength_horizontal]; norm_num
  have hoff : cornerOffset zeroRandEnv [] ⟨0, 0⟩ ⟨0, 0⟩ ⟨1, 0⟩ = 0 := by
    unfold cornerOffset
    rw [ha, hb]
    apply cutSearch_small
    norm_num
  refine ⟨ha, hb, hoff, ?_⟩
  rw [hoff, ha, hb]
  norm_num

/-! ## `cutCorners` keeps the end points -/

theorem set_insertIdx_eq (x y : TargetPoint) :
    ∀ (pts : List TargetPoint) (i : ℕ), i < pts.length →
      (pts.set i x).insertIdx i y = pts.take i ++ y :: x :: pts.drop (i + 1) := by
  intro pts
  induction pts with
  | nil => intro i h; simp at h
  | cons a rest ih =>
    intro i h
    cases i with
    | zero => simp [List.insertIdx]
    | succ i =>
      have hi : i < rest.length := by simpa using h
      simp [List.insertIdx_succ_cons, ih i hi]

theorem set_insertIdx_ends (x y : TargetPoint) (pts : List TargetPoint) (i : ℕ)
    (h1 : 1 ≤ i) (h2 : i + 1 < pts.length) :
    ((pts.set i x).insertIdx i y).head? = pts.head? ∧
    ((pts.set i x).insertIdx i y).getLast? = pts.getLast? ∧
    ((pts.set i x).insertIdx i y).length = pts.length + 1 := by
  rw [set_insertIdx_eq x y pts i (by omega)]
  have hsplit : pts = pts.take i ++ pts.drop i := (List.take_append_drop i pts).symm
  have hdrop : pts.drop i = pts[i] :: pts.drop (i + 1) := List.drop_eq_getElem_cons (by omega)
  have hdrop2 : pts.drop (i + 1) = pts[i + 1] :: pts.drop (i + 1 + 1) :=
    List.drop_eq_getElem_cons h2
  have htake : pts.take i ≠ [] := by
    intro h
    have := congrArg List.length h
    simp only [List.length_take, List.length_nil] at this
    omega
  refine ⟨?_, ?_, ?_⟩
  · conv_rhs => rw [hsplit]
    rw [List.head?_append_of_ne_nil _ htake, List.head?_append_of_ne_nil _ htake]
  · conv_rhs => rw [hsplit, hdrop, hdrop2]
    rw [hdrop2]
    have e1 : pts.take i ++ y :: x :: pts[i + 1] :: pts.drop (i + 1 + 1)
        = (pts.take i ++ [y, x]) ++ pts[i + 1] :: pts.drop (i + 1 + 1) := by simp
    have e2 : pts.take i ++ pts[i] :: pts[i + 1] :: pts.drop (i + 1 + 1)
        = (pts.take i ++ [pts[i]]) ++ pts[i + 1] :: pts.drop (i + 1 + 1) := by simp
    rw [e1, e2, List.getLast?_append_cons, List.getLast?_append_cons]
  · simp only [List.length_append, List.length_take, List.length_cons, List.length_drop]
    omega

theorem cutCornersLoop_ends (lastGoodOf : Vector2d → Vector2d → Vector2d → ℚ)
    (direction : Vector2d → Vector2d → Vector2d) :
    ∀ (n i : ℕ) (pts : List TargetPoint), pts.length - i = n → 1 ≤ i → pts ≠ [] →
      ∃ out, cutCornersLoop lastGoodOf direction i pts = some out ∧
        out.head? = pts.head? ∧ out.getLast? = pts.getLast? := by
  intro n
  induction n using Nat.strong_induction_on with
  | _ n ih =>
    intro i pts hn hi hne
    have hlen : 0 < pts.length := List.length_pos.mpr hne
    have hsize : sizeMinusOne pts.length = pts.length - 1 := by
      simp [sizeMinusOne, Nat.pos_iff_ne_zero.mp hlen]
    rw [cutCornersLoop]
    by_cases h1 : i < sizeMinusOne pts.length
    · have h2 : i + 1 < pts.length := by rw [hsize] at h1; omega
      simp only [h1, h2, if_true, dif_pos]
      split
      · obtain ⟨e1, e2, e3⟩ := set_insertIdx_ends
          ⟨pts[i].Location + direction pts[i].Location pts[i - 1].Location
            * lastGoodOf pts[i - 1].Location pts[i].Location pts[i + 1].Location⟩
          ⟨pts[i].Location + direction pts[i].Location pts[i + 1].Location
            * lastGoodOf pts[i - 1].Location pts[i].Location pts[i + 1].Location⟩
          pts i hi h2
        obtain ⟨out, hout, hh, hl⟩ := ih (pts.length - i - 1) (by omega) (i + 1 + 1) _
          (by rw [e3]; omega) (by omega)
          (by intro h; have := congrArg List.length h; rw [e3] at this; simp at this)
        exact ⟨out, hout, hh.trans e1, hl.trans e2⟩
      · exact ih (pts.length - (i + 1)) (by omega) (i + 1) pts rfl (by omega) hne
    · simp only [h1, if_false]
      exact ⟨pts, rfl, rfl, rfl⟩

theorem cutCornersPoints_ends (E : Env) (obstacles_ : List Obstacle) (pts : List TargetPoint)
    (hne : pts ≠ []) :
    ∃ out, cutCornersPoints E obstacles_ pts = some out ∧
      out.head? = pts.head? ∧ out.getLast? = pts.getLast? :=
  cutCornersLoop_ends _ _ _ 1 pts rfl le_rfl hne

theorem cutCornersPoints_nil (E : Env) (obstacles_ : List Obstacle) :
    cutCornersPoints E obstacles_ [] = none := by
  unfold cutCornersPoints
  rw [cutCornersLoop]
  simp [sizeMinusOne]

theorem cutCornersPoints_one (E : Env) (obstacles_ : List Obstacle) (a : TargetPoint) :
    cutCornersPoints E obstacles_ [a] = some [a] := by
  unfold cutCornersPoints
  rw [cutCornersLoop]
  simp [sizeMinusOne]

/-! ## `simplify` leaves no shortcut -/

theorem getElem?_cut (A M B : List TargetPoint) (a b : TargetPoint) (j : ℕ) :
    (j ≤ A.length → (A ++ a :: b :: B)[j]? = (A ++ a :: (M ++ b :: B))[j]?) ∧
    (A.length < j → (A ++ a :: b :: B)[j]? = (A ++ a :: (M ++ b :: B))[j + M.length]?) := by
  have e1 : A ++ a :: b :: B = (A ++ [a]) ++ b :: B := by simp
  constructor
  · intro h
    have e2 : A ++ a :: (M ++ b :: B) = (A ++ [a]) ++ (M ++ b :: B) := by simp
    have hj : j < (A ++ [a]).length := by
      simp only [List.length_append, List.length_singleton]; omega
    rw [e1, e2, @List.getElem?_append_left _ (A ++ [a]) (b :: B) j hj,
      @List.getElem?_append_left _ (A ++ [a]) (M ++ b :: B) j hj]
  · intro h
    have e2 : A ++ a :: (M ++ b :: B) = (A ++ [a] ++ M) ++ b :: B := by simp
    have hj1 : (A ++ [a]).length ≤ j := by
      simp only [List.length_append, List.length_singleton]; omega
    have hj2 : (A ++ [a] ++ M).length ≤ j + M.length := by
      simp only [List.length_append, List.length_singleton]; omega
    rw [e1, e2, @List.getElem?_append_right _ (A ++ [a]) (b :: B) j hj1,
      @List.getElem?_append_right _ (A ++ [a] ++ M) (b :: B) (j + M.length) hj2]
    congr 1
    simp only [List.length_append, List.length_singleton]
    omega

theorem simplifyInner_scan (obstacles_ : List Obstacle) (pts : List TargetPoint) (s : ℕ)
    (a : TargetPoint) (ha : pts[s]? = some a) :
    ∀ e, e < pts.length →
      (simplifyInner obstacles_ pts s e = some pts ∧
        ∀ (j : ℕ) (c : TargetPoint), s + 1 < j → j ≤ e → pts[j]? = some c →
          intersectsObstacle obstacles_ ⟨a.Location, c.Location⟩ = true) ∨
      (∃ A M b B, pts = A ++ a :: (M ++ b :: B) ∧ A.length = s ∧ M ≠ [] ∧
        intersectsObstacle obstacles_ ⟨a.Location, b.Location⟩ = false ∧
        simplifyInner obstacles_ pts s e = some (A ++ a :: b :: B) ∧
        ∀ (j : ℕ) (c : TargetPoint), s + M.length + 1 < j → j ≤ e → pts[j]? = some c →
          intersectsObstacle obstacles_ ⟨a.Location, c.Location⟩ = true) := by
  intro e
  induction e with
  | zero =>
    intro _
    left
    exact ⟨by simp [simplifyInner], fun j c h1 h2 => by omega⟩
  | succ e ih =>
    intro he
    by_cases hgt : e + 1 > s + 1
    · obtain ⟨A, a2, M, b, B, hpts, hA, hMlen, hM, hsa, heb⟩ :=
        split_at_indices pts s (e + 1) hgt he
      have haa : a2 = a := by rw [hsa] at ha; exact Option.some.inj ha
      subst haa
      cases hfree : intersectsObstacle obstacles_ ⟨a2.Location, b.Location⟩ with
      | false =>
        right
        refine ⟨A, M, b, B, hpts, hA, hM, hfree, ?_, fun j c h1 h2 => by omega⟩
        simp only [simplifyInner, hgt, if_true, hsa, heb, hfree, Bool.not_false]
        have hcount : e + 1 - s - 1 = M.length := by omega
        rw [hcount, ← hA]
        conv_lhs => rw [hpts]
        exact eraseRange_mid A a2 M (b :: B)
      | true =>
        have hstep : simplifyInner obstacles_ pts s (e + 1)
            = simplifyInner obstacles_ pts s e := by
          simp only [simplifyInner, hgt, if_true, hsa, heb, hfree, Bool.not_true]
          rfl
        rcases ih (by omega) with ⟨h1, h2⟩ | ⟨A2, M2, b2, B2, h1, h2, h3, h4, h5, h6⟩
        · left
          refine ⟨by rw [hstep, h1], ?_⟩
          intro j c hj1 hj2 hc
          rcases Nat.lt_or_ge j (e + 1) with hlt | hge
          · exact h2 j c hj1 (by omega) hc
          · have hj : j = e + 1 := by omega
            subst hj
            rw [heb] at hc
            cases hc
            exact hfree
        · right
          refine ⟨A2, M2, b2, B2, h1, h2, h3, h4, by rw [hstep, h5], ?_⟩
          intro j c hj1 hj2 hc
          rcases Nat.lt_or_ge j (e + 1) with hlt | hge
          · exact h6 j c hj1 (by omega) hc
          · have hj : j = e + 1 := by omega
            subst hj
            rw [heb] at hc
            cases hc
            exact hfree
    · left
      exact ⟨by simp [simplifyInner, hgt], fun j c h1 h2 => by omega⟩

theorem simplifyOuter_noShortcut (obstacles_ : List Obstacle) :
    ∀ (n s : ℕ) (pts : List TargetPoint), pts.length - s = n →
      noShortcutBelow obstacles_ s pts →
      ∃ out, simplifyOuter obstacles_ s pts = some out ∧ noShortcut obstacles_ out := by
  intro n
  induction n using Nat.strong_induction_on with
  | _ n ih =>
    intro s pts hn hdone
    by_cases hs : s < pts.length
    · have ha : pts[s]? = some pts[s] := List.getElem?_eq_getElem hs
      rcases simplifyInner_scan obstacles_ pts s pts[s] ha (pts.length - 1) (by omega) with
        ⟨h1, h2⟩ | ⟨A, M, b, B, h1, h2, h3, h4, h5, h6⟩
      · rw [simplifyOuter_step obstacles_ s pts pts hs h1]
        apply ih (pts.length - (s + 1)) (by omega) (s + 1) pts rfl
        intro i j x y hi hij hx hy
        rcases Nat.lt_or_ge i s with hlt | hge
        · exact hdone i j x y hlt hij hx hy
        · have hi2 : i = s := by omega
          subst hi2
          rw [ha] at hx
          cases hx
          have hj : j < pts.length := by
            rcases Nat.lt_or_ge j pts.length with h | h
            · exact h
            · rw [List.getElem?_eq_none h] at hy; cases hy
          exact h2 j y hij (by omega) hy
      · rw [simplifyOuter_step obstacles_ s pts _ hs h5]
        apply ih ((A ++ pts[s] :: b :: B).length - (s + 1)) ?_ (s + 1) _ rfl
        · intro i j x y hi hij hx hy
          have hcut := getElem?_cut A M B pts[s] b
          rcases Nat.lt_or_ge i s with hlt | hge
          · rw [(hcut i).1 (by omega), ← h1] at hx
            rcases Nat.lt_or_ge A.length j with hj | hj
            · rw [(hcut j).2 hj, ← h1] at hy
              exact hdone i (j + M.length) x y hlt (by omega) hx hy
            · rw [(hcut j).1 hj, ← h1] at hy
              exact hdone i j x y hlt hij hx hy
          · have hi2 : i = s := by omega
            subst hi2
            rw [(hcut i).1 (by omega), ← h1, ha] at hx
            cases hx
            rw [(hcut j).2 (by omega), ← h1] at hy
            have hj : j + M.length < pts.length := by
              rcases Nat.lt_or_ge (j + M.length) pts.length with h | h
              · exact h
              · rw [List.getElem?_eq_none h] at hy; cases hy
            exact h6 (j + M.length) y (by omega) (by omega) hy
        · have hlen : pts.length = (A ++ pts[s] :: (M ++ b :: B)).length := by rw [← h1]
          have hMpos : 0 < M.length := List.length_pos.mpr h3
          simp only [List.length_append, List.length_cons] at hlen ⊢
          omega
    · rw [simplifyOuter_done obstacles_ s pts hs]
      refine ⟨pts, rfl, ?_⟩
      intro i j x y hij hx hy
      have hi : i < pts.length := by
        rcases Nat.lt_or_ge i pts.length with h | h
        · exact h
        · rw [List.getElem?_eq_none h] at hx; cases hx
      exact hdone i j x y (by omega) hij hx hy

theorem simplifyInner_blocked (obstacles_ : List Obstacle) (pts : List TargetPoint) (s : ℕ)
    (a : TargetPoint) (ha : pts[s]? = some a) :
    ∀ e, e < pts.length →
      (∀ (j : ℕ) (c : TargetPoint), s + 1 < j → j ≤ e → pts[j]? = some c →
        intersectsObstacle obstacles_ ⟨a.Location, c.Location⟩ = true) →
      simplifyInner obstacles_ pts s e = some pts := by
  intro e
  induction e with
  | zero => intro _ _; simp [simplifyInner]
  | succ e ih =>
    intro he hb
    by_cases hgt : e + 1 > s + 1
    · have hc : pts[e + 1]? = some pts[e + 1] := List.getElem?_eq_getElem he
      have hblocked := hb (e + 1) pts[e + 1] hgt le_rfl hc
      simp only [simplifyInner, hgt, if_true, ha, hc, hblocked, Bool.not_true]
      exact ih (by omega) (fun j c h1 h2 h3 => hb j c h1 (by omega) h3)
    · simp [simplifyInner, hgt]

theorem simplifyOuter_fixed (obstacles_ : List Obstacle) (pts : List TargetPoint)
    (h : noShortcut obstacles_ pts) :
    ∀ (n s : ℕ), pts.length - s = n → simplifyOuter obstacles_ s pts = some pts := by
  intro n
  induction n with
  | zero =>
    intro s hn
    exact simplifyOuter_done obstacles_ s pts (by omega)
  | succ n ih =>
    intro s hn
    have hs : s < pts.length := by omega
    have ha : pts[s]? = some pts[s] := List.getElem?_eq_getElem hs
    rw [simplifyOuter_step obstacles_ s pts pts hs
      (simplifyInner_blocked obstacles_ pts s pts[s] ha (pts.length - 1) (by omega)
        (fun j c h1 _ h3 => h s j pts[s] c h1 ha h3))]
    exact ih (s + 1) (by omega)

/-- C19: `simplify` leaves no shortcut and is idempotent.  For every waypoint list and every
obstacle set `simplify` returns; in the new list every two waypoints at indices `i < j`
with `j > i + 1` have a connecting segment that intersects an obstacle; and `simplify`
applied to the new list returns the new list. -/
theorem simplify_leaves_no_shortcut (P : Path) :
    ∃ out, simplify P = some { P with CAtargetPoints_ := out } ∧
      (∀ (i j : ℕ) (a b : TargetPoint), i + 1 < j → out[i]? = some a → out[j]? = some b →
        intersectsObstacle P.obstacles_ ⟨a.Location, b.Location⟩ = true) ∧
      simplify { P with CAtargetPoints_ := out } = some { P with CAtargetPoints_ := out } := by
  obtain ⟨out, hout, hno⟩ := simplifyOuter_noShortcut P.obstacles_ _ 0 P.CAtargetPoints_ rfl
    (fun i j a b hi => by omega)
  refine ⟨out, ?_, hno, ?_⟩
  · simp only [simplify, simplifyPoints, hout]
  · have h := simplifyOuter_fixed P.obstacles_ out hno _ 0 rfl
    simp only [simplify, simplifyPoints, h]

/-! ## The tree-search branch of `compute` -/

theorem searchLoopCount_finished (E : Env) (endPos : Position) (resetStepSize : ℚ)
    (nr_iterations iteration : ℤ) (k : ℕ) (P : Path) (c : ℕ)
    (h : ¬ iteration < nr_iterations) :
    searchLoopCount E endPos resetStepSize nr_iterations iteration k P c = some (P, c) := by
  rw [searchLoopCount]
  simp only [h, dif_neg, not_false_eq_true]

theorem searchLoopCount_reached (E : Env) (endPos : Position) (resetStepSize : ℚ)
    (nr_iterations iteration : ℤ) (k : ℕ) (P P2 : Path) (tree : KdTree) (n : Node) (c : ℕ)
    (h : iteration < nr_iterations) (hT : P.tree_ = some tree)
    (hext : extend E P (tree.nearest E (selectTarget E P.p_dest_ endPos k).1)
      (selectTarget E P.p_dest_ endPos k).1 = some (some n, P2))
    (hd : getDistance E n.position endPos < 0.001) :
    searchLoopCount E endPos resetStepSize nr_iterations iteration k P c
      = some ({ P2 with stepSize_ := resetStepSize }, c + 1) := by
  rw [searchLoopCount]
  simp only [h, dif_pos, hT, hext, hd, if_true]

theorem searchLoopCount_extended (E : Env) (endPos : Position) (resetStepSize : ℚ)
    (nr_iterations iteration : ℤ) (k : ℕ) (P P2 : Path) (tree : KdTree) (n : Node) (c : ℕ)
    (h : iteration < nr_iterations) (hT : P.tree_ = some tree)
    (hext : extend E P (tree.nearest E (selectTarget E P.p_dest_ endPos k).1)
      (selectTarget E P.p_dest_ endPos k).1 = some (some n, P2))
    (hd : ¬ getDistance E n.position endPos < 0.001) :
    searchLoopCount E endPos resetStepSize nr_iterations iteration k P c
      = searchLoopCount E endPos resetStepSize nr_iterations (iteration + 1)
          (selectTarget E P.p_dest_ endPos k).2 { P2 with stepSize_ := resetStepSize }
          (c + 1) := by
  rw [searchLoopCount]
  simp only [h, dif_pos, hT, hext, hd, if_false]

theorem searchLoopCount_rejected (E : Env) (endPos : Position) (resetStepSize : ℚ)
    (nr_iterations iteration : ℤ) (k : ℕ) (P P2 : Path) (tree : KdTree) (c : ℕ)
    (h : iteration < nr_iterations) (hT : P.tree_ = some tree)
    (hext : extend E P (tree.nearest E (selectTarget E P.p_dest_ endPos k).1)
      (selectTarget E P.p_dest_ endPos k).1 = some (none, P2)) :
    searchLoopCount E endPos resetStepSize nr_iterations iteration k P c
      = searchLoopCount E endPos resetStepSize nr_iterations (iteration + 1)
          (selectTarget E P.p_dest_ endPos k).2
          { P2 with stepSize_ := P2.stepSize_ + P2.stepSize_ * 0.05 } (c + 1) := by
  rw [searchLoopCount]
  simp only [h, dif_pos, hT, hext]

theorem nearest_mem_nodes (E : Env) (tree : KdTree) (point : Vector2d) :
    tree.nearest E point ∈ tree.nodes := by
  unfold KdTree.nearest KdTree.nodes
  rcases nearestAux_mem E point tree.inserted tree.rootNode with h | h
  · rw [h]; exact List.mem_cons_self _ _
  · exact List.mem_cons_of_mem _ h

theorem nearestAux_le (E : Env) (point : Vector2d) :
    ∀ (rest : List Node) (best : Node),
      getDistance E (KdTree.nearestAux E point best rest).position point
          ≤ getDistance E best.position point ∧
      ∀ n ∈ rest, getDistance E (KdTree.nearestAux E point best rest).position point
          ≤ getDistance E n.position point := by
  intro rest
  induction rest with
  | nil => intro best; exact ⟨le_rfl, fun n hn => by simp at hn⟩
  | cons m rest ih =>
    intro best
    simp only [KdTree.nearestAux]
    split
    · rename_i hlt
      obtain ⟨h1, h2⟩ := ih m
      refine ⟨h1.trans hlt.le, ?_⟩
      intro n hn
      rcases List.mem_cons.mp hn with h | h
      · rw [h]; exact h1
      · exact h2 n h
    · rename_i hge
      obtain ⟨h1, h2⟩ := ih best
      refine ⟨h1, ?_⟩
      intro n hn
      rcases List.mem_cons.mp hn with h | h
      · rw [h]; exact h1.trans (not_lt.mp hge)
      · exact h2 n h

theorem nearest_le (E : Env) (tree : KdTree) (point : Vector2d) :
    ∀ n ∈ tree.nodes, getDistance E (tree.nearest E point).position point
      ≤ getDistance E n.position point := by
  intro n hn
  obtain ⟨h1, h2⟩ := nearestAux_le E point tree.inserted tree.rootNode
  rcases List.mem_cons.mp hn with h | h
  · rw [h]; exact h1
  · exact h2 n h

theorem extractPath_shape :
    ∀ (n : Node) (acc : List TargetPoint),
      ∃ pre, extractPath n acc = pre ++ ⟨n.position⟩ :: acc ∧ pre.length = n.depth := by
  intro n
  induction n with
  | root p f => intro acc; exact ⟨[], rfl, rfl⟩
  | child p f parent ih =>
    intro acc
    obtain ⟨pre, h1, h2⟩ := ih (⟨p⟩ :: acc)
    refine ⟨pre ++ [⟨parent.position⟩], ?_, ?_⟩
    · simp [extractPath, h1, Node.position]
    · simp [h2, Node.depth]

theorem depthBound_insert (tree : KdTree) (fromNode : Node) (p : Vector2d)
    (h : depthBound tree) (hfrom : fromNode ∈ tree.nodes) :
    depthBound ⟨tree.rootNode, tree.inserted ++ [Node.child p false fromNode]⟩ := by
  intro n hn
  simp only [KdTree.nodes, List.mem_cons, List.mem_append, List.not_mem_nil, or_false] at hn
  simp only [List.length_append, List.length_singleton]
  rcases hn with hn | hn | hn
  · have := h n (by rw [hn]; exact List.mem_cons_self _ _)
    omega
  · have := h n (List.mem_cons_of_mem _ hn)
    omega
  · rw [hn]
    have := h fromNode hfrom
    simp only [Node.depth]
    omega

theorem searchLoopCount_inv (E : Env) (endPos : Position) (resetStepSize : ℚ)
    (nr_iterations : ℤ) (P : Path) :
    ∀ (m : ℕ) (iteration : ℤ) (k : ℕ) (Q : Path) (tree : KdTree) (c : ℕ),
      (nr_iterations - iteration).toNat = m → SearchInv P Q tree → depthBound tree →
      ∃ Q2 tree2 c2,
        searchLoopCount E endPos resetStepSize nr_iterations iteration k Q c = some (Q2, c2) ∧
        searchLoop E endPos resetStepSize nr_iterations iteration k Q = some Q2 ∧
        SearchInv P Q2 tree2 ∧ depthBound tree2 ∧ c2 ≤ c + m ∧
        tree2.inserted.length + c ≤ tree.inserted.length + c2 ∧ c ≤ c2 ∧
        (iteration < nr_iterations → c < c2) := by
  intro m
  induction m with
  | zero =>
    intro iteration k Q tree c hm hinv hdepth
    have hnot : ¬ iteration < nr_iterations := by omega
    exact ⟨Q, tree, c, searchLoopCount_finished _ _ _ _ _ _ _ _ hnot,
      searchLoop_finished _ _ _ _ _ _ _ hnot, hinv, hdepth, le_rfl, le_rfl, le_rfl,
      fun h => absurd h hnot⟩
  | succ m ih =>
    intro iteration k Q tree c hm hinv hdepth
    have hlt : iteration < nr_iterations := by omega
    have hm2 : (nr_iterations - (iteration + 1)).toNat = m := by omega
    have hfrom := hinv.nearest_checked E (selectTarget E Q.p_dest_ endPos k).1
    have hmem := nearest_mem_nodes E tree (selectTarget E Q.p_dest_ endPos k).1
    by_cases hrej : extendRejects E Q tree
        (tree.nearest E (selectTarget E Q.p_dest_ endPos k).1)
        (selectTarget E Q.p_dest_ endPos k).1
    · have hext := extend_of_rejects E Q tree _ _ hinv.tree_eq hrej
      rw [searchLoopCount_rejected E endPos resetStepSize nr_iterations iteration k Q Q tree c
        hlt hinv.tree_eq hext,
        searchLoop_rejected E endPos resetStepSize nr_iterations iteration k Q Q tree hlt
        hinv.tree_eq hext]
      obtain ⟨Q2, t2, c2, h1, h2, h3, h4, h5, h6, h7, _⟩ :=
        ih (iteration + 1) (selectTarget E Q.p_dest_ endPos k).2 _ tree (c + 1) hm2
          (hinv.stepSize (Q.stepSize_ + Q.stepSize_ * 0.05)) hdepth
      exact ⟨Q2, t2, c2, h1, h2, h3, h4, by omega, by omega, by omega, fun _ => by omega⟩
    · have hext := extend_of_not_rejects E Q tree _ _ hinv.tree_eq hrej
      have hinv2 := hinv.extend_accept E _ _ hfrom hrej
      have hdepth2 := depthBound_insert tree _
        (extendCandidate E Q.stepSize_
          (tree.position (tree.nearest E (selectTarget E Q.p_dest_ endPos k).1))
          (selectTarget E Q.p_dest_ endPos k).1) hdepth hmem
      by_cases hd : getDistance E (Node.child (extendCandidate E Q.stepSize_
          (tree.position (tree.nearest E (selectTarget E Q.p_dest_ endPos k).1))
          (selectTarget E Q.p_dest_ endPos k).1) false
          (tree.nearest E (selectTarget E Q.p_dest_ endPos k).1)).position endPos < 0.001
      · rw [searchLoopCount_reached E endPos resetStepSize nr_iterations iteration k Q _ tree _
          c hlt hinv.tree_eq hext hd,
          searchLoop_reached E endPos resetStepSize nr_iterations iteration k Q _ tree _ hlt
          hinv.tree_eq hext hd]
        refine ⟨_, _, c + 1, rfl, rfl, hinv2.stepSize resetStepSize, hdepth2, by omega, ?_,
          by omega, fun _ => by omega⟩
        simp only [List.length_append, List.length_singleton]
        omega
      · rw [searchLoopCount_extended E endPos resetStepSize nr_iterations iteration k Q _ tree
          _ c hlt hinv.tree_eq hext hd,
          searchLoop_extended E endPos resetStepSize nr_iterations iteration k Q _ tree _ hlt
          hinv.tree_eq hext hd]
        obtain ⟨Q2, t2, c2, h1, h2, h3, h4, h5, h6, h7, _⟩ :=
          ih (iteration + 1) (selectTarget E Q.p_dest_ endPos k).2 _ _ (c + 1) hm2
            (hinv2.stepSize resetStepSize) hdepth2
        refine ⟨Q2, t2, c2, h1, h2, h3, h4, by omega, ?_, by omega, fun _ => by omega⟩
        simp only [List.length_append, List.length_singleton] at h6
        omega

theorem simplify_ends (P : Path) :
    ∃ out, simplify P = some { P with CAtargetPoints_ := out } ∧
      out.head? = P.CAtargetPoints_.head? ∧ out.getLast? = P.CAtargetPoints_.getLast? := by
  obtain ⟨out, hout, hsc⟩ := simplifyOuter_shortcuts P.obstacles_ _ 0 P.CAtargetPoints_ rfl
  exact ⟨out, by simp only [simplify, simplifyPoints, hout], hsc.head_eq, hsc.getLast_eq⟩

theorem cutCorners_ends (E : Env) (P : Path) (hne : P.CAtargetPoints_ ≠ []) :
    ∃ out, cutCorners E P = some { P with CAtargetPoints_ := out } ∧
      out.head? = P.CAtargetPoints_.head? ∧ out.getLast? = P.CAtargetPoints_.getLast? := by
  obtain ⟨out, hout, h1, h2⟩ := cutCornersPoints_ends E P.obstacles_ P.CAtargetPoints_ hne
  exact ⟨out, by simp only [cutCorners, hout], h1, h2⟩

theorem ne_nil_of_head? {l : List TargetPoint} {a : TargetPoint} (h : l.head? = some a) :
    l ≠ [] := by
  intro hl
  rw [hl] at h
  simp at h

theorem postProcess_ends (E : Env) (first : TargetPoint) :
    ∀ (n : ℕ) (P : Path), P.CAtargetPoints_.head? = some first →
      ∃ out, postProcess E n P = some { P with CAtargetPoints_ := out } ∧
        out.head? = some first ∧ out.getLast? = P.CAtargetPoints_.getLast? := by
  intro n
  induction n with
  | zero => intro P h; exact ⟨P.CAtargetPoints_, rfl, h, rfl⟩
  | succ n ih =>
    intro P h
    obtain ⟨o1, hs, h1, l1⟩ := simplify_ends P
    have hne1 : ({ P with CAtargetPoints_ := o1 } : Path).CAtargetPoints_ ≠ [] :=
      ne_nil_of_head? (h1.trans h)
    obtain ⟨o2, hc, h2, l2⟩ := cutCorners_ends E { P with CAtargetPoints_ := o1 } hne1
    obtain ⟨o3, hp, h3, l3⟩ := ih { P with CAtargetPoints_ := o2 } ((h2.trans h1).trans h)
    refine ⟨o3, ?_, h3, (l3.trans l2).trans l1⟩
    simp only [postProcess, hs, hc]
    exact hp

theorem computeSearch_spec (E : Env) (P : Path) (endPos : Position) :
    ∃ Q tree c out,
      searchLoopCount E endPos P.stepSize_ P.nr_iterations_ 1 0
        { P with CAtargetPoints_ := [], tree_ := some (KdTree.construct P.position_ false) } 0
        = some (Q, c) ∧
      searchLoop E endPos P.stepSize_ P.nr_iterations_ 1 0
        { P with CAtargetPoints_ := [], tree_ := some (KdTree.construct P.position_ false) }
        = some Q ∧
      SearchInv { P with CAtargetPoints_ := [] } Q tree ∧ depthBound tree ∧
      c ≤ (P.nr_iterations_ - 1).toNat ∧ tree.inserted.length ≤ c ∧
      (1 < P.nr_iterations_ → 0 < c) ∧
      computeSearch E { P with CAtargetPoints_ := [] } endPos
        = some { Q with stepSize_ := P.stepSize_, CAtargetPoints_ := out } ∧
      out.head? = some ⟨P.position_⟩ ∧
      out.getLast? = some ⟨(tree.nearest E endPos).position⟩ ∧
      extractPath (tree.nearest E endPos) [] ≠ [] ∧
      (extractPath (tree.nearest E endPos) []).length = (tree.nearest E endPos).depth + 1 ∧
      (extractPath (tree.nearest E endPos) []).getLast?
        = some ⟨(tree.nearest E endPos).position⟩ := by
  have hinv0 : SearchInv { P with CAtargetPoints_ := [] }
      { P with CAtargetPoints_ := [], tree_ := some (KdTree.construct P.position_ false) }
      (KdTree.construct P.position_ false) := by
    refine ⟨rfl, rfl, rfl, rfl, rfl, rfl, rfl, rfl, rfl, rfl, rfl, ?_⟩
    intro n hn
    simp [KdTree.construct] at hn
  have hdepth0 : depthBound (KdTree.construct P.position_ false) := by
    intro n hn
    simp only [KdTree.nodes, KdTree.construct, List.mem_singleton] at hn
    rw [hn]
    simp [Node.depth]
  obtain ⟨Q, tree, c, hcount, hloop, hinv, hdepth, hc1, hc2, _, hc3⟩ :=
    searchLoopCount_inv E endPos P.stepSize_ P.nr_iterations_ { P with CAtargetPoints_ := [] }
      _ 1 0 _ _ 0 rfl hinv0 hdepth0
  obtain ⟨rest, hrest, _⟩ := extractPath_checked { P with CAtargetPoints_ := [] }
    (tree.nearest E endPos) [] (hinv.nearest_checked E endPos)
  obtain ⟨pre, hpre, hprelen⟩ := extractPath_shape (tree.nearest E endPos) []
  have hhead : (extractPath (tree.nearest E endPos) []).head? = some ⟨P.position_⟩ := by
    rw [hrest]; rfl
  have hlast : (extractPath (tree.nearest E endPos) []).getLast?
      = some ⟨(tree.nearest E endPos).position⟩ := by
    rw [hpre, List.getLast?_append_cons]; rfl
  have hlen : (extractPath (tree.nearest E endPos) []).length
      = (tree.nearest E endPos).depth + 1 := by
    rw [hpre]; simp [hprelen]
  have hpts : Q.CAtargetPoints_ = [] := hinv.points
  obtain ⟨o1, hp, h1, l1⟩ := postProcess_ends E ⟨P.position_⟩ P.nr_pp_steps_.toNat
    { Q with stepSize_ := P.stepSize_
             CAtargetPoints_ := extractPath (tree.nearest E endPos) [] } hhead
  obtain ⟨o2, hs, h2, l2⟩ := simplify_ends
    { Q with stepSize_ := P.stepSize_, CAtargetPoints_ := o1 }
  refine ⟨Q, tree, c, o2, hcount, hloop, hinv, hdepth, by simpa using hc1,
    by simpa [KdTree.construct] using hc2, fun h => hc3 h, ?_, h2.trans h1,
    (l2.trans l1).trans hlast, ne_nil_of_head? hhead, hlen, hlast⟩
  have hsearch : searchLoop E endPos
      ({ P with CAtargetPoints_ := [] } : Path).stepSize_
      ({ P with CAtargetPoints_ := [] } : Path).nr_iterations_ 1 0
      { ({ P with CAtargetPoints_ := [] } : Path) with
        tree_ := some (KdTree.construct
          ({ P with CAtargetPoints_ := [] } : Path).position_ false) } = some Q := hloop
  have hp2 : postProcess E ({ P with CAtargetPoints_ := [] } : Path).nr_pp_steps_.toNat
      { Q with stepSize_ := ({ P with CAtargetPoints_ := [] } : Path).stepSize_
               CAtargetPoints_ := extractPath (tree.nearest E endPos) [] }
      = some { Q with stepSize_ := P.stepSize_, CAtargetPoints_ := o1 } := hp
  unfold computeSearch
  rw [hsearch]
  simp only [hinv.tree_eq, hpts] at hp2 hs ⊢
  simp only [hp2]
  exact hs

theorem compute_blocked_eq (E : Env) (P : Path) (requestedEnd : TargetPoint)
    (endPos : Position) (hEnd : correctedEnd P requestedEnd = some endPos)
    (hBlocked : intersectsObstacle P.obstacles_ ⟨P.position_, endPos⟩ = true) :
    compute E P requestedEnd = computeSearch E { P with CAtargetPoints_ := [] } endPos := by
  have hEnd2 : correctedEnd { P with CAtargetPoints_ := [] } requestedEnd = some endPos := hEnd
  simp only [compute, hEnd2, hBlocked, Bool.not_true]
  rfl

/-! ## End points, iteration cap and frame of the tree-search branch -/

theorem blocked_end (P : Path) (hobs : P.obstacles_ = blockedPath.obstacles_)
    (hcor : P.corners_ = []) (hfield : P.field_ = rectField 1.4 0.88) :
    correctedEnd P ⟨⟨0.1, 0⟩⟩ = some ⟨0.1, 0⟩ := by
  refine correctedEnd_of_valid P ⟨⟨0.1, 0⟩⟩ ?_ ?_ ?_
  · intro o ho
    rw [hobs] at ho
    simp only [blockedPath, List.mem_singleton] at ho
    subst ho
    norm_num [discObstacle]
  · intro c hc; rw [hcor] at hc; simp at hc
  · intro _; rw [hfield]; norm_num [rectField]

theorem blocked_hit :
    intersectsObstacle blockedPath.obstacles_ ⟨⟨0, 0⟩, ⟨0.1, 0⟩⟩ = true := by
  norm_num [blockedPath, intersectsObstacle, discObstacle, distSqToSegment]

/-- C12: path end points in the tree-search branch.  Whenever the direct segment from the
start to the corrected goal intersects an obstacle, `compute` returns, the planner then
holds a tree whose root is at the start position, and the waypoint list left after
extraction and all `simplify` and `cutCorners` passes has the start position as its first
waypoint and the position of the node of that tree nearest to the corrected goal as its
last waypoint. -/
theorem compute_tree_endpoints (E : Env) (P : Path) (requestedEnd : TargetPoint)
    (endPos : Position) (hEnd : correctedEnd P requestedEnd = some endPos)
    (hBlocked : intersectsObstacle P.obstacles_ ⟨P.position_, endPos⟩ = true) :
    ∃ P2 tree, compute E P requestedEnd = some P2 ∧ P2.tree_ = some tree ∧
      tree.root.position = P.position_ ∧
      tree.nearest E endPos ∈ tree.nodes ∧
      P2.CAtargetPoints_.head? = some ⟨P.position_⟩ ∧
      P2.CAtargetPoints_.head? = some ⟨tree.root.position⟩ ∧
      P2.CAtargetPoints_.getLast? = some ⟨(tree.nearest E endPos).position⟩ := by
  obtain ⟨Q, tree, c, out, _, _, hinv, _, _, _, _, hcomp, hhead, hlast, _⟩ :=
    computeSearch_spec E P endPos
  have hroot : tree.root.position = P.position_ := by
    unfold KdTree.root
    rw [hinv.root_eq]
    rfl
  refine ⟨{ Q with stepSize_ := P.stepSize_, CAtargetPoints_ := out }, tree, ?_,
    hinv.tree_eq, hroot, nearest_mem_nodes E tree endPos, hhead, ?_, hlast⟩
  · rw [compute_blocked_eq E P requestedEnd endPos hEnd hBlocked]
    exact hcomp
  · rw [hroot]; exact hhead

/-- Witness of C12: the planner at `(0, 0)` with a robot at `(0.05, 0)` and the goal
`(0.1, 0)`. -/
theorem compute_tree_endpoints_witness :
    correctedEnd blockedPath ⟨⟨0.1, 0⟩⟩ = some ⟨0.1, 0⟩ ∧
    intersectsObstacle blockedPath.obstacles_ ⟨blockedPath.position_, ⟨0.1, 0⟩⟩ = true ∧
    ∃ P2 tree, compute zeroRandEnv blockedPath ⟨⟨0.1, 0⟩⟩ = some P2 ∧ P2.tree_ = some tree ∧
      tree.root.position = blockedPath.position_ ∧
      tree.nearest zeroRandEnv ⟨0.1, 0⟩ ∈ tree.nodes ∧
      P2.CAtargetPoints_.head? = some ⟨blockedPath.position_⟩ ∧
      P2.CAtargetPoints_.head? = some ⟨tree.root.position⟩ ∧
      P2.CAtargetPoints_.getLast? = some ⟨(tree.nearest zeroRandEnv ⟨0.1, 0⟩).position⟩ :=
  ⟨blocked_end blockedPath rfl rfl rfl, blocked_hit,
    compute_tree_endpoints zeroRandEnv blockedPath ⟨⟨0.1, 0⟩⟩ ⟨0.1, 0⟩
      (blocked_end blockedPath rfl rfl rfl) blocked_hit⟩

/-- C13: a completed search reaches the goal.  In the tree-search branch, let the search
loop end with the tree `tree`.  The node that the nearest query returns for the corrected
goal has minimal distance to it among the nodes of the tree; so if some inserted node `n`
lies at distance below `0.001` from the corrected goal, `compute` returns and the last
waypoint of its list is at distance below `0.001` from the corrected goal.  And the loop
stops at once on such a node: the iteration that inserts it returns without a further
iteration. -/
theorem compute_reaches_goal (E : Env) (P : Path) (requestedEnd : TargetPoint)
    (endPos : Position) (Q : Path) (tree : KdTree) (n : Node)
    (hEnd : correctedEnd P requestedEnd = some endPos)
    (hBlocked : intersectsObstacle P.obstacles_ ⟨P.position_, endPos⟩ = true)
    (hloop : searchLoop E endPos P.stepSize_ P.nr_iterations_ 1 0
      { P with CAtargetPoints_ := [], tree_ := some (KdTree.construct P.position_ false) }
      = some Q)
    (htree : Q.tree_ = some tree) (hn : n ∈ tree.inserted)
    (hd : getDistance E n.position endPos < 0.001) :
    (∀ m ∈ tree.nodes, getDistance E (tree.nearest E endPos).position endPos
      ≤ getDistance E m.position endPos) ∧
    (∃ P2 last, compute E P requestedEnd = some P2 ∧ P2.tree_ = some tree ∧
      P2.CAtargetPoints_.getLast? = some last ∧
      last.Location = (tree.nearest E endPos).position ∧
      getDistance E last.Location endPos < 0.001) ∧
    (∀ (resetStepSize : ℚ) (nr_iterations iteration : ℤ) (k : ℕ) (Q1 Q2 : Path)
      (tree1 : KdTree) (n1 : Node), iteration < nr_iterations → Q1.tree_ = some tree1 →
      extend E Q1 (tree1.nearest E (selectTarget E Q1.p_dest_ endPos k).1)
        (selectTarget E Q1.p_dest_ endPos k).1 = some (some n1, Q2) →
      getDistance E n1.position endPos < 0.001 →
      searchLoop E endPos resetStepSize nr_iterations iteration k Q1
        = some { Q2 with stepSize_ := resetStepSize }) := by
  obtain ⟨Q0, tree0, c, out, _, hloop0, hinv, _, _, _, _, hcomp, _, hlast, _⟩ :=
    computeSearch_spec E P endPos
  have hQ : Q0 = Q := by
    rw [hloop0] at hloop
    exact Option.some.inj hloop
  subst hQ
  have ht : tree0 = tree := by
    have := hinv.tree_eq
    rw [htree] at this
    exact (Option.some.inj this).symm
  subst ht
  have hmin := nearest_le E tree0 endPos
  refine ⟨hmin, ⟨{ Q0 with stepSize_ := P.stepSize_, CAtargetPoints_ := out },
    ⟨(tree0.nearest E endPos).position⟩, ?_, hinv.tree_eq, hlast, rfl, ?_⟩, ?_⟩
  · rw [compute_blocked_eq E P requestedEnd endPos hEnd hBlocked]
    exact hcomp
  · exact lt_of_le_of_lt (hmin n (List.mem_cons_of_mem _ hn)) hd
  · intro resetStepSize nr_iterations iteration k Q1 Q2 tree1 n1 hlt hT hext hd1
    exact searchLoop_reached E endPos resetStepSize nr_iterations iteration k Q1 Q2 tree1 n1
      hlt hT hext hd1

/-- Witness of C13: the planner at `(0, 0)` with a robot at `(0.05, 0)`: the first
extension inserts a node at the goal `(0.1, 0)`. -/
theorem compute_reaches_goal_witness :
    ∃ P2 last, compute zeroRandEnv blockedPath ⟨⟨0.1, 0⟩⟩ = some P2 ∧
      P2.CAtargetPoints_.getLast? = some last ∧
      getDistance zeroRandEnv last.Location ⟨0.1, 0⟩ < 0.001 :=
  have hd : getDistance zeroRandEnv
      (Node.child ⟨0.1, 0⟩ false (Node.root ⟨0, 0⟩ false)).position ⟨0.1, 0⟩ < 0.001 := by
    have e : ((⟨0.1, 0⟩ : Vector2d) - ⟨0.1, 0⟩) = ⟨0, 0⟩ := by rw [vec_sub]; norm_num
    simp only [getDistance, Node.position, e]
    show euclidLength _ < _
    rw [euclidLength_axis_x]; norm_num
  have h := compute_reaches_goal zeroRandEnv blockedPath ⟨⟨0.1, 0⟩⟩ ⟨0.1, 0⟩
    blockedPathSearched
    ⟨Node.root ⟨0, 0⟩ false, [Node.child ⟨0.1, 0⟩ false (Node.root ⟨0, 0⟩ false)]⟩
    (Node.child ⟨0.1, 0⟩ false (Node.root ⟨0, 0⟩ false))
    (blocked_end blockedPath rfl rfl rfl) blocked_hit blocked_searchLoop rfl
    (List.mem_singleton.mpr rfl) hd
  match h.2.1 with
  | ⟨P2, last, h1, _, h3, _, h5⟩ => ⟨P2, last, h1, h3, h5⟩

theorem extend_none_eq (E : Env) (Q Q2 : Path) (tree : KdTree) (fromNode : Node)
    (toPos : Vector2d) (hT : Q.tree_ = some tree)
    (hext : extend E Q fromNode toPos = some (none, Q2)) : Q2 = Q := by
  by_cases hrej : extendRejects E Q tree fromNode toPos
  · rw [extend_of_rejects E Q tree fromNode toPos hT hrej] at hext
    simp only [Option.some.injEq, Prod.mk.injEq, true_and] at hext
    exact hext.symm
  · rw [extend_of_not_rejects E Q tree fromNode toPos hT hrej] at hext
    simp at hext

/-- C15: the step size is call-local.  Every `compute` call that returns, through the
direct-path branch or the tree-search branch, leaves `stepSize_` at the value it had
before the call.  Within the loop an iteration whose extension is rejected continues with
`stepSize_` multiplied by `1.05`, and an iteration whose extension is accepted returns
(goal reached) or continues with `stepSize_` set to `resetStepSize`, which `compute`
passes as the value of `stepSize_` at entry. -/
theorem compute_stepSize_restored (E : Env) (P : Path) (requestedEnd : TargetPoint)
    (endPos : Position) (hEnd : correctedEnd P requestedEnd = some endPos) :
    (∃ P2, compute E P requestedEnd = some P2 ∧ P2.stepSize_ = P.stepSize_) ∧
    (intersectsObstacle P.obstacles_ ⟨P.position_, endPos⟩ = true →
      ∃ Q, searchLoop E endPos P.stepSize_ P.nr_iterations_ 1 0
        { P with CAtargetPoints_ := [], tree_ := some (KdTree.construct P.position_ false) }
        = some Q ∧
        ∃ out, compute E P requestedEnd
          = some { Q with stepSize_ := P.stepSize_, CAtargetPoints_ := out }) ∧
    (∀ (resetStepSize : ℚ) (nr_iterations iteration : ℤ) (k : ℕ) (Q Q2 : Path)
      (tree : KdTree), iteration < nr_iterations → Q.tree_ = some tree →
      extend E Q (tree.nearest E (selectTarget E Q.p_dest_ endPos k).1)
        (selectTarget E Q.p_dest_ endPos k).1 = some (none, Q2) →
      Q2.stepSize_ = Q.stepSize_ ∧
      searchLoop E endPos resetStepSize nr_iterations iteration k Q
        = searchLoop E endPos resetStepSize nr_iterations (iteration + 1)
            (selectTarget E Q.p_dest_ endPos k).2
            { Q2 with stepSize_ := Q.stepSize_ * 1.05 }) ∧
    (∀ (resetStepSize : ℚ) (nr_iterations iteration : ℤ) (k : ℕ) (Q Q2 : Path)
      (tree : KdTree) (n : Node), iteration < nr_iterations → Q.tree_ = some tree →
      extend E Q (tree.nearest E (selectTarget E Q.p_dest_ endPos k).1)
        (selectTarget E Q.p_dest_ endPos k).1 = some (some n, Q2) →
      (getDistance E n.position endPos < 0.001 →
        searchLoop E endPos resetStepSize nr_iterations iteration k Q
          = some { Q2 with stepSize_ := resetStepSize }) ∧
      (¬ getDistance E n.position endPos < 0.001 →
        searchLoop E endPos resetStepSize nr_iterations iteration k Q
          = searchLoop E endPos resetStepSize nr_iterations (iteration + 1)
              (selectTarget E Q.p_dest_ endPos k).2
              { Q2 with stepSize_ := resetStepSize })) := by
  have hEnd2 : correctedEnd { P with CAtargetPoints_ := [] } requestedEnd = some endPos := hEnd
  refine ⟨?_, ?_, ?_, ?_⟩
  · cases hB : intersectsObstacle P.obstacles_ ⟨P.position_, endPos⟩ with
    | false =>
      refine ⟨{ P with CAtargetPoints_ := [⟨endPos⟩] }, ?_, rfl⟩
      simp only [compute, hEnd2, hB, Bool.not_false, if_true]
    | true =>
      obtain ⟨Q, tree, c, out, _, _, _, _, _, _, _, hcomp, _⟩ := computeSearch_spec E P endPos
      refine ⟨{ Q with stepSize_ := P.stepSize_, CAtargetPoints_ := out }, ?_, rfl⟩
      rw [compute_blocked_eq E P requestedEnd endPos hEnd hB]
      exact hcomp
  · intro hB
    obtain ⟨Q, tree, c, out, _, hloop, _, _, _, _, _, hcomp, _⟩ := computeSearch_spec E P endPos
    refine ⟨Q, hloop, out, ?_⟩
    rw [compute_blocked_eq E P requestedEnd endPos hEnd hB]
    exact hcomp
  · intro resetStepSize nr_iterations iteration k Q Q2 tree hlt hT hext
    have hQ := extend_none_eq E Q Q2 tree _ _ hT hext
    subst hQ
    refine ⟨rfl, ?_⟩
    rw [searchLoop_rejected E endPos resetStepSize nr_iterations iteration k Q2 Q2 tree hlt hT
      hext]
    have hmul : Q2.stepSize_ + Q2.stepSize_ * 0.05 = Q2.stepSize_ * 1.05 := by ring
    rw [hmul]
  · intro resetStepSize nr_iterations iteration k Q Q2 tree n hlt hT hext
    exact ⟨fun hd => searchLoop_reached E endPos resetStepSize nr_iterations iteration k Q Q2
        tree n hlt hT hext hd,
      fun hd => searchLoop_extended E endPos resetStepSize nr_iterations iteration k Q Q2
        tree n hlt hT hext hd⟩

/-- Witness of C15: the planner at `(0, 0)` with a robot at `(0.05, 0)` and the goal
`(0.1, 0)` keeps its step size `0.1`. -/
theorem compute_stepSize_restored_witness :
    ∃ P2, compute zeroRandEnv blockedPath ⟨⟨0.1, 0⟩⟩ = some P2 ∧ P2.stepSize_ = 0.1 :=
  (compute_stepSize_restored zeroRandEnv blockedPath ⟨⟨0.1, 0⟩⟩ ⟨0.1, 0⟩
    (blocked_end blockedPath rfl rfl rfl)).1

theorem stale_end : correctedEnd staleTreePath ⟨⟨0.5, 0⟩⟩ = some ⟨0.5, 0⟩ := by
  refine correctedEnd_of_valid _ ⟨⟨0.5, 0⟩⟩ ?_ ?_ ?_
  · intro o ho; simp [staleTreePath, emptyFieldPath] at ho
  · intro c hc; simp [staleTreePath, emptyFieldPath] at hc
  · intro _; norm_num [staleTreePath, emptyFieldPath, rectField]

/-- C16, counterexample: a planner at `(0, 0)` on the empty field that holds the tree of an
earlier call, rooted at `(1, 0.5)`.  The call `compute((0.5, 0))` takes the direct-path
shortcut and returns with that tree still in place: the tree held after the call was not
created during the call and its root is not the start position. -/
theorem compute_direct_keeps_old_tree :
    ∃ P2, compute zeroRandEnv staleTreePath ⟨⟨0.5, 0⟩⟩ = some P2 ∧
      P2.CAtargetPoints_ = [⟨⟨0.5, 0⟩⟩] ∧
      P2.tree_ = staleTreePath.tree_ ∧
      P2.tree_ = some (KdTree.construct ⟨1, 0.5⟩ false) ∧
      ¬ ∃ tree, P2.tree_ = some tree ∧ tree.root.position = staleTreePath.position_ := by
  have hend : correctedEnd { staleTreePath with CAtargetPoints_ := [] } ⟨⟨0.5, 0⟩⟩
      = some ⟨0.5, 0⟩ := stale_end
  have hfree : intersectsObstacle staleTreePath.obstacles_
      ⟨staleTreePath.position_, ⟨0.5, 0⟩⟩ = false := rfl
  refine ⟨{ staleTreePath with CAtargetPoints_ := [⟨⟨0.5, 0⟩⟩] }, ?_, rfl, rfl, rfl, ?_⟩
  · simp only [compute, hend, hfree, Bool.not_false, if_true]
  · rintro ⟨tree, ht, hroot⟩
    have ht2 : some (KdTree.construct ⟨1, 0.5⟩ false) = some tree := ht
    have ht3 := Option.some.inj ht2
    subst ht3
    have hx : (1 : ℚ) = 0 := congrArg Vector2d.x hroot
    norm_num at hx

theorem computeSearch_old_tree (E : Env) (P : Path) (endPos : Position)
    (old : Option KdTree) :
    computeSearch E { P with tree_ := old } endPos = computeSearch E P endPos := by
  unfold computeSearch
  rfl

theorem correctedEnd_old_tree (P : Path) (requestedEnd : TargetPoint)
    (old : Option KdTree) :
    correctedEnd { P with tree_ := old } requestedEnd = correctedEnd P requestedEnd := by
  unfold correctedEnd
  rfl

/-- C16, amended: the tree is rebuilt on every call that searches.  When the direct
segment from the start to the corrected goal is blocked, `compute` returns with a tree
whose root is at the start position of the call, and the planner after the call, its tree
included, does not depend on the tree held before the call.  When the direct segment is
free, `compute` returns with the tree it held before the call. -/
theorem compute_tree_rebuilt_when_searching (E : Env) (P : Path)
    (requestedEnd : TargetPoint) (endPos : Position)
    (hEnd : correctedEnd P requestedEnd = some endPos) :
    (intersectsObstacle P.obstacles_ ⟨P.position_, endPos⟩ = true →
      ∃ P2 tree, compute E P requestedEnd = some P2 ∧ P2.tree_ = some tree ∧
        tree.root = Node.root P.position_ false ∧
        ∀ old : Option KdTree, compute E { P with tree_ := old } requestedEnd = some P2) ∧
    (intersectsObstacle P.obstacles_ ⟨P.position_, endPos⟩ = false →
      ∃ P2, compute E P requestedEnd = some P2 ∧ P2.tree_ = P.tree_) := by
  have hEnd2 : correctedEnd { P with CAtargetPoints_ := [] } requestedEnd = some endPos := hEnd
  constructor
  · intro hB
    obtain ⟨Q, tree, c, out, _, _, hinv, _, _, _, _, hcomp, _⟩ := computeSearch_spec E P endPos
    have hc : compute E P requestedEnd
        = some { Q with stepSize_ := P.stepSize_, CAtargetPoints_ := out } := by
      rw [compute_blocked_eq E P requestedEnd endPos hEnd hB]
      exact hcomp
    refine ⟨_, tree, hc, hinv.tree_eq, hinv.root_eq, ?_⟩
    intro old
    rw [compute_blocked_eq E { P with tree_ := old } requestedEnd endPos
      ((correctedEnd_old_tree P requestedEnd old).trans hEnd) hB]
    exact (computeSearch_old_tree E { P with CAtargetPoints_ := [] } endPos old).trans hcomp
  · intro hB
    refine ⟨{ P with CAtargetPoints_ := [⟨endPos⟩] }, ?_, rfl⟩
    simp only [compute, hEnd2, hB, Bool.not_false, if_true]

/-- Witness of C16, amended: the planner holding an old tree, with the goal `(0.5, 0)`. -/
theorem compute_tree_rebuilt_when_searching_witness :
    correctedEnd staleTreePath ⟨⟨0.5, 0⟩⟩ = some ⟨0.5, 0⟩ ∧
    ∃ P2, compute zeroRandEnv staleTreePath ⟨⟨0.5, 0⟩⟩ = some P2 ∧
      P2.tree_ = staleTreePath.tree_ :=
  ⟨stale_end,
    (compute_tree_rebuilt_when_searching zeroRandEnv staleTreePath ⟨⟨0.5, 0⟩⟩ ⟨0.5, 0⟩
      stale_end).2 rfl⟩

theorem extractPath_ne_nil (n : Node) (acc : List TargetPoint) : extractPath n acc ≠ [] := by
  obtain ⟨pre, hpre, _⟩ := extractPath_shape n acc
  rw [hpre]
  simp

/-- C20, evaluated: on the empty waypoint list the loop bound `size() - 1` is `2^64 - 1`,
the loop body runs with `i = 1` and reads past the end of the vector, so `cutCorners` has
no defined result there, whereas `simplify` returns the empty list unchanged; a list of
one or of two waypoints is returned unchanged without any out-of-range access.  Inside
`compute` the extracted chain is never empty, and every round of post-processing on a
non-empty list returns a non-empty list, so `cutCorners` is never called there with an
empty list. -/
theorem cutCorners_short_lists (E : Env) (P : Path) (a b : TargetPoint) :
    sizeMinusOne ([] : List TargetPoint).length = 2 ^ 64 - 1 ∧
    cutCorners E { P with CAtargetPoints_ := [] } = none ∧
    simplify { P with CAtargetPoints_ := [] } = some { P with CAtargetPoints_ := [] } ∧
    cutCorners E { P with CAtargetPoints_ := [a] } = some { P with CAtargetPoints_ := [a] } ∧
    cutCorners E { P with CAtargetPoints_ := [a, b] }
      = some { P with CAtargetPoints_ := [a, b] } ∧
    (∀ (n : Node) (acc : List TargetPoint), extractPath n acc ≠ []) ∧
    (∀ rest : List TargetPoint, ∃ out,
      simplify { P with CAtargetPoints_ := a :: rest }
        = some { P with CAtargetPoints_ := out } ∧ out ≠ []) ∧
    (∀ (k : ℕ) (rest : List TargetPoint), ∃ out,
      postProcess E k { P with CAtargetPoints_ := a :: rest }
        = some { P with CAtargetPoints_ := out } ∧ out ≠ []) := by
  refine ⟨rfl, ?_, ?_, ?_, ?_, extractPath_ne_nil, ?_, ?_⟩
  · simp only [cutCorners, cutCornersPoints_nil]
  · exact simplify_short _ (by simp)
  · simp only [cutCorners, cutCornersPoints_one]
  · exact cutCorners_two E _ a b rfl
  · intro rest
    obtain ⟨out, h1, h2, _⟩ := simplify_ends { P with CAtargetPoints_ := a :: rest }
    exact ⟨out, h1, ne_nil_of_head? h2⟩
  · intro k rest
    obtain ⟨out, h1, h2, _⟩ := postProcess_ends E a k
      { P with CAtargetPoints_ := a :: rest } rfl
    exact ⟨out, h1, ne_nil_of_head? h2⟩

/-! ## The number of extension attempts -/

theorem searchLoopCount_fst (E : Env) (endPos : Position) (resetStepSize : ℚ)
    (nr_iterations : ℤ) :
    ∀ (m : ℕ) (iteration : ℤ) (k : ℕ) (Q : Path) (c : ℕ),
      (nr_iterations - iteration).toNat = m →
      (searchLoopCount E endPos resetStepSize nr_iterations iteration k Q c).map Prod.fst
        = searchLoop E endPos resetStepSize nr_iterations iteration k Q := by
  intro m
  induction m with
  | zero =>
    intro iteration k Q c hm
    have hnot : ¬ iteration < nr_iterations := by omega
    rw [searchLoopCount_finished _ _ _ _ _ _ _ _ hnot, searchLoop_finished _ _ _ _ _ _ _ hnot]
    rfl
  | succ m ih =>
    intro iteration k Q c hm
    have hlt : iteration < nr_iterations := by omega
    have hm2 : (nr_iterations - (iteration + 1)).toNat = m := by omega
    rw [searchLoopCount, searchLoop]
    simp only [hlt, dif_pos]
    cases hT : Q.tree_ with
    | none => rfl
    | some tree =>
      simp only []
      cases hext : extend E Q (tree.nearest E (selectTarget E Q.p_dest_ endPos k).1)
          (selectTarget E Q.p_dest_ endPos k).1 with
      | none => rfl
      | some r =>
        obtain ⟨node, Q2⟩ := r
        cases node with
        | none => exact ih _ _ _ _ hm2
        | some n =>
          simp only []
          split
          · rfl
          · exact ih _ _ _ _ hm2

theorem computeSearchCount_fst (E : Env) (P : Path) (endPos : Position) :
    (computeSearchCount E P endPos).map Prod.fst = computeSearch E P endPos := by
  unfold computeSearchCount computeSearch
  rw [← searchLoopCount_fst E endPos P.stepSize_ P.nr_iterations_ _ 1 0 _ 0 rfl]
  cases searchLoopCount E endPos P.stepSize_ P.nr_iterations_ 1 0
      { P with tree_ := some (KdTree.construct P.position_ false) } 0 with
  | none => rfl
  | some r =>
    obtain ⟨P1, c⟩ := r
    simp only [Option.map_some']
    cases P1.tree_ with
    | none => rfl
    | some tree =>
      simp only []
      generalize postProcess E P.nr_pp_steps_.toNat _ = pp
      cases pp with
      | none => rfl
      | some P2 =>
        simp only []
        cases simplify P2 with
        | none => rfl
        | some P3 => rfl

theorem computeCount_fst (E : Env) (P : Path) (requestedEnd : TargetPoint) :
    (computeCount E P requestedEnd).map Prod.fst = compute E P requestedEnd := by
  unfold computeCount compute
  cases correctedEnd { P with CAtargetPoints_ := [] } requestedEnd with
  | none => rfl
  | some endPos =>
    simp only []
    split
    · rfl
    · exact computeSearchCount_fst E _ endPos

theorem computeSearchCount_of (E : Env) (P : Path) (endPos : Position) (Q P2 : Path) (c : ℕ)
    (hcount : searchLoopCount E endPos P.stepSize_ P.nr_iterations_ 1 0
      { P with tree_ := some (KdTree.construct P.position_ false) } 0 = some (Q, c))
    (hcomp : computeSearch E P endPos = some P2) :
    computeSearchCount E P endPos = some (P2, c) := by
  have hfst := computeSearchCount_fst E P endPos
  rw [hcomp] at hfst
  unfold computeSearchCount at hfst ⊢
  rw [hcount] at hfst ⊢
  simp only [] at hfst ⊢
  cases hT : Q.tree_ with
  | none => rw [hT] at hfst; simp at hfst
  | some tree =>
    rw [hT] at hfst
    simp only [] at hfst ⊢
    generalize postProcess E P.nr_pp_steps_.toNat _ = pp at hfst ⊢
    cases pp with
    | none => simp at hfst
    | some P3 =>
      simp only [] at hfst ⊢
      cases hs : simplify P3 with
      | none => rw [hs] at hfst; simp at hfst
      | some P4 =>
        rw [hs] at hfst
        simp only [Option.map_some', Option.some.injEq] at hfst
        rw [hfst]

theorem computeSearch_chain (E : Env) (P : Path) (endPos : Position) (Q P2 : Path)
    (tree : KdTree)
    (hloop : searchLoop E endPos P.stepSize_ P.nr_iterations_ 1 0
      { P with tree_ := some (KdTree.construct P.position_ false) } = some Q)
    (hT : Q.tree_ = some tree) (hcomp : computeSearch E P endPos = some P2) :
    ∃ P3, postProcess E P.nr_pp_steps_.toNat
        { Q with
          stepSize_ := P.stepSize_
          CAtargetPoints_ := extractPath (tree.nearest E endPos) Q.CAtargetPoints_ } = some P3 ∧
      simplify P3 = some P2 := by
  unfold computeSearch at hcomp
  rw [hloop] at hcomp
  simp only [hT] at hcomp
  cases hpp : postProcess E P.nr_pp_steps_.toNat
      { Q with
        stepSize_ := P.stepSize_
        CAtargetPoints_ := extractPath (tree.nearest E endPos) Q.CAtargetPoints_ } with
  | none =>
    simp only [hT] at hpp
    rw [hpp] at hcomp
    simp at hcomp
  | some P3 =>
    simp only [hT] at hpp
    rw [hpp] at hcomp
    exact ⟨P3, rfl, hcomp⟩

/-- C14: the iteration cap.  In the tree-search branch `compute` returns a planner `P2`
holding a tree `tree`, and it makes `c` calls of `extend` with `c <= nr_iterations_ - 1`,
none when `nr_iterations_ <= 1`; the tree holds at most `c + 1` and so at most
`max(1, nr_iterations_)` nodes.  The chain extracted from the tree, of which the list of
`P2` is the post-processed form, has no more waypoints than the tree has nodes.  With
`nr_iterations_ = 2` exactly one extension is attempted, the tree has at most two nodes,
and the chain and the list of `P2` end at the one of them that is nearest to the goal. -/
theorem compute_iteration_cap (E : Env) (P : Path) (requestedEnd : TargetPoint)
    (endPos : Position) (hEnd : correctedEnd P requestedEnd = some endPos)
    (hBlocked : intersectsObstacle P.obstacles_ ⟨P.position_, endPos⟩ = true) :
    ∃ P2 tree c,
      compute E P requestedEnd = some P2 ∧
      computeCount E P requestedEnd = some (P2, c) ∧
      P2.tree_ = some tree ∧
      (c : ℤ) ≤ max 0 (P.nr_iterations_ - 1) ∧
      (P.nr_iterations_ ≤ 1 → c = 0) ∧
      tree.nodes.length ≤ c + 1 ∧
      (tree.nodes.length : ℤ) ≤ max 1 P.nr_iterations_ ∧
      (∃ P3, postProcess E P.nr_pp_steps_.toNat
          { P2 with CAtargetPoints_ := extractPath (tree.nearest E endPos) [] } = some P3 ∧
        simplify P3 = some P2) ∧
      (extractPath (tree.nearest E endPos) []).length ≤ tree.nodes.length ∧
      ((extractPath (tree.nearest E endPos) []).length : ℤ) ≤ max 1 P.nr_iterations_ ∧
      (P.nr_iterations_ = 2 → c = 1 ∧ tree.nodes.length ≤ 2 ∧
        tree.nearest E endPos ∈ tree.nodes ∧
        (extractPath (tree.nearest E endPos) []).getLast?
          = some ⟨(tree.nearest E endPos).position⟩ ∧
        P2.CAtargetPoints_.getLast? = some ⟨(tree.nearest E endPos).position⟩) := by
  obtain ⟨Q, tree, c, out, hcount, hloop, hinv, hdepth, hc1, hc2, hc3, hcomp, _, hlastout, _,
    hlen, hlast⟩ := computeSearch_spec E P endPos
  have hnodes : tree.nodes.length = tree.inserted.length + 1 := by
    simp [KdTree.nodes]
  have hd := hdepth _ (nearest_mem_nodes E tree endPos)
  have hEnd2 : correctedEnd { P with CAtargetPoints_ := [] } requestedEnd = some endPos := hEnd
  have hpts : Q.CAtargetPoints_ = [] := hinv.points
  obtain ⟨P3, hP3, hsimp⟩ := computeSearch_chain E { P with CAtargetPoints_ := [] } endPos Q _
    tree hloop hinv.tree_eq hcomp
  rw [hpts] at hP3
  refine ⟨{ Q with stepSize_ := P.stepSize_, CAtargetPoints_ := out }, tree, c, ?_, ?_,
    hinv.tree_eq, ?_, ?_, ?_, ?_, ⟨P3, hP3, hsimp⟩, ?_, ?_, ?_⟩
  · rw [compute_blocked_eq E P requestedEnd endPos hEnd hBlocked]
    exact hcomp
  · simp only [computeCount, hEnd2, hBlocked, Bool.not_true]
    exact computeSearchCount_of E { P with CAtargetPoints_ := [] } endPos Q _ c hcount hcomp
  · omega
  · intro h; omega
  · omega
  · omega
  · omega
  · omega
  · intro h
    have := hc3 (by omega)
    exact ⟨by omega, by omega, nearest_mem_nodes E tree endPos, hlast, hlastout⟩

/-- Witness of C14: the planner at `(0, 0)` with a robot at `(0.05, 0)`, the goal
`(0.1, 0)` and `nr_iterations_ = 2`: one extension is attempted. -/
theorem compute_iteration_cap_witness :
    ∃ P2 tree c,
      compute zeroRandEnv twoIterationPath ⟨⟨0.1, 0⟩⟩ = some P2 ∧
      computeCount zeroRandEnv twoIterationPath ⟨⟨0.1, 0⟩⟩ = some (P2, c) ∧
      P2.tree_ = some tree ∧ c = 1 ∧ tree.nodes.length ≤ 2 ∧
      (extractPath (tree.nearest zeroRandEnv ⟨0.1, 0⟩) []).length ≤ 2 :=
  match compute_iteration_cap zeroRandEnv twoIterationPath ⟨⟨0.1, 0⟩⟩ ⟨0.1, 0⟩
    (blocked_end twoIterationPath rfl rfl rfl) blocked_hit with
  | ⟨P2, tree, c, h1, h2, h3, _, _, _, _, _, h9, _, h11⟩ =>
    ⟨P2, tree, c, h1, h2, h3, (h11 rfl).1, (h11 rfl).2.1, h9.trans (h11 rfl).2.1⟩

/-! ## Waypoints through post-processing -/

end RoboSoccer
